import Mathlib

/-!
Verification development for the flux-helpers tag-bump core.

The Go code operates on untyped trees (map[string]interface{},
[]interface{}, scalars) deserialized from YAML/JSON.  We model such a
tree as a single inductive type `VNode`: a Go map value is an
association chain `mcons k v rest` terminated by `mnil` (Go map keys
are unique; the well-formedness predicate `wfN` records this, since Go
map iteration order is unspecified we fix the chain order as the
iteration order), and a Go slice is a chain `scons h t` terminated by
`snil`.

Go's matcher returns aliases into the tree (the matched map itself for
a structured match, and a record key/value/parent-alias for an inline
match).  Writing through such an alias mutates the tree in place.  In
the model an alias is the access path from the root (`KPath`), and a
write through an alias is a functional update at that path (`updAt`).
A write through an alias whose referent has been detached from the
tree by an earlier write (the earlier write replaced an ancestor with
a string) is invisible in the tree in Go, and is a no-op in the model;
a detached *read* (structured-match case) can in Go still set the
`updated` flag, but any detachment requires an earlier applied write,
which already set the flag, so the function results coincide.
-/

inductive VNode where
  | str (s : String)
  | num (n : Int)
  | boolv (b : Bool)
  | nullv
  | mnil
  | mcons (key : String) (val : VNode) (rest : VNode)
  | snil
  | scons (head : VNode) (tail : VNode)
deriving DecidableEq

/-- A step in an access path: a map key or a slice index. -/
inductive PStep where
  | key (k : String)
  | idx (i : Nat)
deriving DecidableEq

/-- An access path from the root of the tree, modelling a Go alias. -/
abbrev KPath := List PStep

/-- Is this node a Go map value (an `mnil`/`mcons` chain)? -/
def isMapShape : VNode → Bool
  | .mnil => true
  | .mcons _ _ _ => true
  | _ => false

/-- Is this node a Go slice value (an `snil`/`scons` chain)? -/
def isSeqShape : VNode → Bool
  | .snil => true
  | .scons _ _ => true
  | _ => false

/-- `m[k]` map read: first entry with the given key (keys are unique
in a well-formed tree). -/
def lookupE : VNode → String → Option VNode
  | .mcons k v r, k0 => if k = k0 then some v else lookupE r k0
  | _, _ => none

/-- Does the chain contain the key? -/
def hasKeyE (n : VNode) (k : String) : Bool :=
  (lookupE n k).isSome

/-- `m[k] = w` map write: replace the entry if the key is present,
append a new entry otherwise (Go map assignment inserts). -/
def setE : VNode → String → VNode → VNode
  | .mcons k v r, k0, w => if k = k0 then .mcons k w r else .mcons k v (setE r k0 w)
  | .mnil, k0, w => .mcons k0 w .mnil
  | n, _, _ => n

/-- Slice element read. -/
def seqGet : Nat → VNode → Option VNode
  | 0, .scons h _ => some h
  | i+1, .scons _ t => seqGet i t
  | _, _ => none

/-- Apply `f` to the value of the first entry with the given key. -/
def mapFirst (k0 : String) (f : VNode → VNode) : VNode → VNode
  | .mcons k v r => if k = k0 then .mcons k (f v) r else .mcons k v (mapFirst k0 f r)
  | n => n

/-- Apply `f` to the i-th element of a slice chain. -/
def seqMap (i : Nat) (f : VNode → VNode) : VNode → VNode
  | .scons h t =>
    match i with
    | 0 => .scons (f h) t
    | j+1 => .scons h (seqMap j f t)
  | n => n

/-- Resolve an access path. -/
def getN : KPath → VNode → Option VNode
  | [], n => some n
  | .key k :: q, n =>
    match lookupE n k with
    | some v => getN q v
    | none => none
  | .idx i :: q, n =>
    match seqGet i n with
    | some v => getN q v
    | none => none

/-- Model of a write through an alias: `alias[k] = w`, where the alias
is the map at path `p`.  If the path no longer resolves to a map (the
referent was detached and replaced), the tree is unchanged. -/
def updAt : KPath → String → VNode → VNode → VNode
  | [], k, w, n => setE n k w
  | .key k0 :: q, k, w, n => mapFirst k0 (updAt q k w) n
  | .idx i :: q, k, w, n => seqMap i (updAt q k w) n

/-- The value stored under key `j` of the map at path `q`. -/
def posVal (q : KPath) (j : String) (t : VNode) : Option VNode :=
  match getN q t with
  | some m => lookupE m j
  | none => none

/-- Well-formedness: map chains have unique keys and chain tails have
the right shape.  Go's `map[string]interface{}` enforces this by
construction. -/
def wfN : VNode → Bool
  | .mcons k v r => isMapShape r && !hasKeyE r k && wfN v && wfN r
  | .scons h t => isSeqShape t && wfN h && wfN t
  | _ => true

/-- List-level prefix test, modelling Go strings.HasPrefix. -/
def hasPrefL : List Char → List Char → Bool
  | [], _ => true
  | _ :: _, [] => false
  | c :: cs, d :: ds => c = d && hasPrefL cs ds

/-- strings.HasPrefix(s, pre). -/
def strHasPref (pre s : String) : Bool := hasPrefL pre.data s.data

/-- Split a character list on a separator, modelling strings.Split
with a one-character separator. -/
def splitChar (sep : Char) : List Char → List (List Char)
  | [] => [[]]
  | c :: cs =>
    let r := splitChar sep cs
    if c = sep then [] :: r
    else
      match r with
      | [] => [[c]]
      | g :: gs => (c :: g) :: gs

/-- `parts[len(parts)-1]` of strings.Split(v, ":"): the substring
after the last colon (the whole string when there is no colon). -/
def lastColonSegment (v : String) : String :=
  String.mk ((splitChar ':' v.data).getLastD [])

/-- Greedy take-while, used to model the regex character-class runs. -/
def takeWhileC (p : Char → Bool) : List Char → List Char × List Char
  | [] => ([], [])
  | c :: cs =>
    if p c then
      let r := takeWhileC p cs
      (c :: r.1, r.2)
    else ([], c :: cs)

def isDigitC (c : Char) : Bool := c.isDigit

/-- The regex class [a-zA-Z0-9.-]. -/
def isIdentC (c : Char) : Bool := c.isAlphanum || c = '.' || c = '-'

/-- The optional build-metadata part: (\+[a-zA-Z0-9.-]+)?$ . -/
def semverBuildPart : List Char → Bool
  | [] => true
  | '+' :: rest =>
    !(takeWhileC isIdentC rest).1.isEmpty && (takeWhileC isIdentC rest).2.isEmpty
  | _ => false

/-- What may follow MAJOR.MINOR.PATCH:
(-[a-zA-Z0-9.-]+)?(\+[a-zA-Z0-9.-]+)?$ . -/
def semverAfterPatch : List Char → Bool
  | '-' :: rest =>
    !(takeWhileC isIdentC rest).1.isEmpty &&
      semverBuildPart (takeWhileC isIdentC rest).2
  | cs => semverBuildPart cs

/-- Consume \d+ followed by a literal dot; none on failure. -/
def digitsDot (cs : List Char) : Option (List Char) :=
  if (takeWhileC isDigitC cs).1.isEmpty then none
  else
    match (takeWhileC isDigitC cs).2 with
    | '.' :: rest => some rest
    | _ => none

/-- \d+\.\d+\.\d+ followed by the optional pre-release and build
parts. -/
def semverCore (cs : List Char) : Bool :=
  match digitsDot cs with
  | none => false
  | some cs2 =>
    match digitsDot cs2 with
    | none => false
    | some cs3 =>
      !(takeWhileC isDigitC cs3).1.isEmpty &&
        semverAfterPatch (takeWhileC isDigitC cs3).2

/-- The regex ^v?\d+\.\d+\.\d+(-[a-zA-Z0-9.-]+)?(\+[a-zA-Z0-9.-]+)?$
as a deterministic parser (greediness is safe: no class contains the
delimiter that follows it). -/
def isValidSemverL (cs : List Char) : Bool :=
  semverCore
    (match cs with
     | 'v' :: rest => rest
     | _ => cs)

/-- isValidSemver from flux-helpers.go / the universal file (both
define the same regex test). -/
def isValidSemver (tag : String) : Bool := isValidSemverL tag.data

/-- One found occurrence of the target image, as produced by
findImageBlocksUniversal.  In Go a structured match is the matched map
itself (an alias) and an inline match is a record
{key, value, path: parent-alias}; here aliases are root paths. -/
inductive MatchRec where
  | structured (p : KPath)
  | inl (p : KPath) (key : String) (value : String)
deriving DecidableEq

/-- Traversal mode of the walk closure in findImageBlocksUniversal:
`walk` is a call walk(node); `ents` is the key/value loop over the
remaining entries of a map whose head was already handled; `elems i`
is the slice loop with `i` elements already consumed. -/
inductive FMode where
  | walk
  | ents
  | elems (i : Nat)

/-- The structured-block check at a map node: if the map has a
"repository" key holding a string equal to imageName, emit a
structured match for this node. -/
def structCheck (img : String) (p : KPath) (n : VNode) : List MatchRec :=
  match lookupE n "repository" with
  | some (.str repo) => if repo = img then [.structured p] else []
  | _ => []

/-- The body of the key/value loop for one entry: emit an inline
match for a string value with the image prefix, otherwise recurse. -/
def findAux (img : String) : FMode → KPath → VNode → List MatchRec
  | .walk, p, .mcons k v r =>
    structCheck img p (.mcons k v r) ++
    (match v with
     | .str s => if strHasPref (img ++ ":") s then [.inl p k s] else []
     | _ => findAux img .walk (p ++ [.key k]) v) ++
    findAux img .ents p r
  | .walk, p, .mnil => structCheck img p .mnil
  | .walk, p, .scons h t =>
    findAux img .walk (p ++ [.idx 0]) h ++ findAux img (.elems 1) p t
  | .ents, p, .mcons k v r =>
    (match v with
     | .str s => if strHasPref (img ++ ":") s then [.inl p k s] else []
     | _ => findAux img .walk (p ++ [.key k]) v) ++
    findAux img .ents p r
  | .elems i, p, .scons h t =>
    findAux img .walk (p ++ [.idx i]) h ++ findAux img (.elems (i+1)) p t
  | _, _, _ => []

/-- findImageBlocksUniversal: depth-first single pass collecting
structured and inline matches. -/
def findImageBlocksUniversal (values : VNode) (imageName : String) : List MatchRec :=
  findAux imageName .walk [] values

/-- The current tag of a structured block: image["tag"].(string),
with a failed type assertion yielding "". -/
def oldTagOf (m : VNode) : String :=
  match lookupE m "tag" with
  | some (.str s) => s
  | _ => ""

/-- Case 2 of the loop body applied to a map value `m` located at
path `p` in the tree: the Aspire-style key/value/path lookups.  For
the synthetic inline records this is bypassed (they are a separate
constructor); this code path only runs for a structured match whose
repository re-check failed, reading the keys of the matched map
itself, exactly as the untyped Go code would. -/
def aspireFallback (img newV : String) (dry : Bool) (t : VNode) (p : KPath) (m : VNode) :
    VNode × Bool :=
  match lookupE m "key", lookupE m "value", lookupE m "path" with
  | some (.str k), some (.str v), some pn =>
    if isMapShape pn && strHasPref (img ++ ":") v then
      if lastColonSegment v = newV then (t, false)
      else if !isValidSemver newV then (t, false)
      else if dry then (t, true)
      else (updAt (p ++ [.key "path"]) k (.str (img ++ ":" ++ newV)) t, true)
    else (t, false)
  | _, _, _ => (t, false)

/-- One iteration of the match loop of BumpTagInValuesUniversal.
Returns the (possibly) updated tree and whether this match counted as
an applied-or-simulated update (the `updated = true` assignments). -/
def stepMatch (img newV : String) (dry : Bool) (t : VNode) : MatchRec → VNode × Bool
  | .structured p =>
    match getN p t with
    | some m =>
      match lookupE m "repository" with
      | some (.str repo) =>
        if repo = img then
          if oldTagOf m = newV then (t, false)
          else if !isValidSemver newV then (t, false)
          else if dry then (t, true)
          else (updAt p "tag" (.str newV) t, true)
        else aspireFallback img newV dry t p m
      | _ => aspireFallback img newV dry t p m
    | none => (t, false)
  | .inl p k v =>
    if strHasPref (img ++ ":") v then
      if lastColonSegment v = newV then (t, false)
      else if !isValidSemver newV then (t, false)
      else if dry then (t, true)
      else (updAt p k (.str (img ++ ":" ++ newV)) t, true)
    else (t, false)

/-- The match loop, threading the tree and the `updated` flag. -/
def rewriteLoop (img newV : String) (dry : Bool) : VNode → Bool → List MatchRec → VNode × Bool
  | t, u, [] => (t, u)
  | t, u, m :: ms =>
    let r := stepMatch img newV dry t m
    rewriteLoop img newV dry r.1 (u || r.2) ms

/-- BumpTagInValuesUniversal: returns the tree (mutated in place in
Go), the `changed` boolean, and the error, which is nil on every
path. -/
def BumpTagInValuesUniversal (values : VNode) (imageName newVersion : String)
    (dryRun : Bool) : VNode × Bool × Option String :=
  let ms := findImageBlocksUniversal values imageName
  if ms.isEmpty then (values, false, none)
  else
    let r := rewriteLoop imageName newVersion dryRun values false ms
    (r.1, r.2, none)

/-- The per-match outcome taxonomy of the rewriter policy (section
4.2 of the spec): applied-or-simulated, skipped as already-current,
skipped as invalid-version, or no effect (a degenerate case: detached
alias, failed re-check, or missing prefix). -/
inductive Outcome where
  | applied
  | skippedCurrent
  | skippedInvalid
  | noEffect
deriving DecidableEq

/-- Outcome of the Aspire-style fallback checks on a map value. -/
def classifyAspire (img newV : String) (m : VNode) : Outcome :=
  match lookupE m "key", lookupE m "value", lookupE m "path" with
  | some (.str _), some (.str v), some pn =>
    if isMapShape pn && strHasPref (img ++ ":") v then
      if lastColonSegment v = newV then .skippedCurrent
      else if !isValidSemver newV then .skippedInvalid
      else .applied
    else .noEffect
  | _, _, _ => .noEffect

/-- Classification of what one match-loop iteration does on tree `t`;
independent of the dry-run flag. -/
def classify (img newV : String) (t : VNode) : MatchRec → Outcome
  | .structured p =>
    match getN p t with
    | some m =>
      match lookupE m "repository" with
      | some (.str repo) =>
        if repo = img then
          if oldTagOf m = newV then .skippedCurrent
          else if !isValidSemver newV then .skippedInvalid
          else .applied
        else classifyAspire img newV m
      | _ => classifyAspire img newV m
    | none => .noEffect
  | .inl _ _ v =>
    if strHasPref (img ++ ":") v then
      if lastColonSegment v = newV then .skippedCurrent
      else if !isValidSemver newV then .skippedInvalid
      else .applied
    else .noEffect

/-- findImageBlocks (flux-helpers.go): structured blocks only, full
recursive walk.  The mode plays the same role as in findAux. -/
def findBAux (img : String) : FMode → KPath → VNode → List KPath
  | .walk, p, .mcons k v r =>
    (match lookupE (.mcons k v r) "repository" with
     | some (.str repo) => if repo = img then [p] else []
     | _ => []) ++
    findBAux img .walk (p ++ [.key k]) v ++ findBAux img .ents p r
  | .walk, p, .mnil =>
    (match lookupE (VNode.mnil) "repository" with
     | some (.str repo) => if repo = img then [p] else []
     | _ => [])
  | .walk, p, .scons h t =>
    findBAux img .walk (p ++ [.idx 0]) h ++ findBAux img (.elems 1) p t
  | .ents, p, .mcons k v r =>
    findBAux img .walk (p ++ [.key k]) v ++ findBAux img .ents p r
  | .elems i, p, .scons h t =>
    findBAux img .walk (p ++ [.idx i]) h ++ findBAux img (.elems (i+1)) p t
  | _, _, _ => []

def findImageBlocks (values : VNode) (imageName : String) : List KPath :=
  findBAux imageName .walk [] values

/-- One iteration of the loop of BumpTagInValues (structured blocks
only; no `updated` flag is threaded because the function returns true
unconditionally after the loop). -/
def stepB (img newV : String) (dry : Bool) (t : VNode) (p : KPath) : VNode :=
  match getN p t with
  | some m =>
    match lookupE m "repository" with
    | some (.str repo) =>
      if repo = img then
        if oldTagOf m = newV then t
        else if !isValidSemver newV then t
        else if dry then t
        else updAt p "tag" (.str newV) t
      else t
    | _ => t
  | none => t

def bumpLoopB (img newV : String) (dry : Bool) : VNode → List KPath → VNode
  | t, [] => t
  | t, p :: ps => bumpLoopB img newV dry (stepB img newV dry t p) ps

/-- BumpTagInValues (flux-helpers.go): false only on the no-match
path; once matches exist the boolean result is true regardless of
per-match skips. -/
def BumpTagInValues (values : VNode) (imageName newVersion : String)
    (dryRun : Bool) : VNode × Bool × Option String :=
  let ms := findImageBlocks values imageName
  if ms.isEmpty then (values, false, none)
  else (bumpLoopB imageName newVersion dryRun values ms, true, none)

/-- The update loop of BumpMultipleTagsUniversalAndSanitize: one
BumpTagInValuesUniversal call per (imageName, newVersion) entry,
counting the images whose call reported a change.  Go map iteration
order is unspecified; the model fixes it as the list order.  File
reading, YAML unmarshalling and sanitization are outside the model. -/
def bumpMultipleUniversal (t : VNode) (updates : List (String × String))
    (dryRun : Bool) : VNode × Nat :=
  match updates with
  | [] => (t, 0)
  | (img, v) :: us =>
    let r := BumpTagInValuesUniversal t img v dryRun
    let rec2 := bumpMultipleUniversal r.1 us dryRun
    (rec2.1, (if r.2.1 then 1 else 0) + rec2.2)

-- ### Per-iteration lemmas

theorem aspire_dry_fst (img v : String) (t : VNode) (p : KPath) (m : VNode) :
    (aspireFallback img v true t p m).1 = t := by
  unfold aspireFallback
  split
  · split_ifs <;> first | rfl | simp_all
  · rfl

theorem aspire_false_fst (img v : String) (d : Bool) (t : VNode) (p : KPath) (m : VNode) :
    (aspireFallback img v d t p m).2 = false → (aspireFallback img v d t p m).1 = t := by
  unfold aspireFallback
  split
  · split_ifs <;> simp
  · simp

theorem aspire_snd_iff (img v : String) (d : Bool) (t : VNode) (p : KPath) (m : VNode) :
    (aspireFallback img v d t p m).2 = true ↔ classifyAspire img v m = .applied := by
  unfold aspireFallback classifyAspire
  split
  · split_ifs <;> simp_all
  · simp

theorem stepMatch_dry_fst (img v : String) (t : VNode) (m : MatchRec) :
    (stepMatch img v true t m).1 = t := by
  cases m with
  | structured p =>
    simp only [stepMatch]
    rcases hg : getN p t with _ | mm
    · rfl
    · dsimp only []
      rcases hr : lookupE mm "repository" with _ | rn
      · exact aspire_dry_fst img v t p mm
      · cases rn with
        | str repo =>
          dsimp only []
          by_cases hri : repo = img
          · simp only [hri, if_true]
            split_ifs <;> rfl
          · simp only [if_neg hri]
            exact aspire_dry_fst img v t p mm
        | num n => exact aspire_dry_fst img v t p mm
        | boolv b => exact aspire_dry_fst img v t p mm
        | nullv => exact aspire_dry_fst img v t p mm
        | mnil => exact aspire_dry_fst img v t p mm
        | mcons k vv r => exact aspire_dry_fst img v t p mm
        | snil => exact aspire_dry_fst img v t p mm
        | scons h tl => exact aspire_dry_fst img v t p mm
  | inl p k vv =>
    simp only [stepMatch]
    split_ifs <;> rfl

theorem stepMatch_false_fst (img v : String) (d : Bool) (t : VNode) (m : MatchRec) :
    (stepMatch img v d t m).2 = false → (stepMatch img v d t m).1 = t := by
  cases m with
  | structured p =>
    simp only [stepMatch]
    rcases hg : getN p t with _ | mm
    · simp
    · dsimp only []
      rcases hr : lookupE mm "repository" with _ | rn
      · exact aspire_false_fst img v d t p mm
      · cases rn with
        | str repo =>
          dsimp only []
          by_cases hri : repo = img
          · simp only [hri, if_true]
            split_ifs <;> simp
          · simp only [if_neg hri]
            exact aspire_false_fst img v d t p mm
        | num n => exact aspire_false_fst img v d t p mm
        | boolv b => exact aspire_false_fst img v d t p mm
        | nullv => exact aspire_false_fst img v d t p mm
        | mnil => exact aspire_false_fst img v d t p mm
        | mcons k vv r => exact aspire_false_fst img v d t p mm
        | snil => exact aspire_false_fst img v d t p mm
        | scons h tl => exact aspire_false_fst img v d t p mm
  | inl p k vv =>
    simp only [stepMatch]
    split_ifs <;> simp

theorem stepMatch_snd_iff (img v : String) (d : Bool) (t : VNode) (m : MatchRec) :
    (stepMatch img v d t m).2 = true ↔ classify img v t m = .applied := by
  cases m with
  | structured p =>
    simp only [stepMatch, classify]
    rcases hg : getN p t with _ | mm
    · simp
    · dsimp only []
      rcases hr : lookupE mm "repository" with _ | rn
      · exact aspire_snd_iff img v d t p mm
      · cases rn with
        | str repo =>
          dsimp only []
          by_cases hri : repo = img
          · simp only [hri, if_true]
            split_ifs <;> simp
          · simp only [if_neg hri]
            exact aspire_snd_iff img v d t p mm
        | num n => exact aspire_snd_iff img v d t p mm
        | boolv b => exact aspire_snd_iff img v d t p mm
        | nullv => exact aspire_snd_iff img v d t p mm
        | mnil => exact aspire_snd_iff img v d t p mm
        | mcons k vv r => exact aspire_snd_iff img v d t p mm
        | snil => exact aspire_snd_iff img v d t p mm
        | scons h tl => exact aspire_snd_iff img v d t p mm
  | inl p k vv =>
    simp only [stepMatch, classify]
    split_ifs <;> simp

theorem stepMatch_snd_dry_indep (img v : String) (d dp : Bool) (t : VNode) (m : MatchRec) :
    (stepMatch img v d t m).2 = (stepMatch img v dp t m).2 := by
  cases hb : (stepMatch img v d t m).2 <;> cases hb2 : (stepMatch img v dp t m).2 <;> try rfl
  · exact absurd ((stepMatch_snd_iff img v d t m).mpr ((stepMatch_snd_iff img v dp t m).mp hb2))
      (by simp [hb])
  · exact absurd ((stepMatch_snd_iff img v dp t m).mpr ((stepMatch_snd_iff img v d t m).mp hb))
      (by simp [hb2])

-- ### Loop lemmas

theorem rewriteLoop_acc_true (img v : String) (d : Bool) (t : VNode) (ms : List MatchRec) :
    (rewriteLoop img v d t true ms).2 = true := by
  induction ms generalizing t with
  | nil => rfl
  | cons m ms ih => simpa [rewriteLoop] using ih (stepMatch img v d t m).1

theorem rewriteLoop_false_iff (img v : String) (d : Bool) (t : VNode) (ms : List MatchRec) :
    (rewriteLoop img v d t false ms).2 = false ↔
      ∀ m ∈ ms, (stepMatch img v d t m).2 = false := by
  induction ms generalizing t with
  | nil => simp [rewriteLoop]
  | cons m ms ih =>
    simp only [rewriteLoop, List.mem_cons]
    rcases hb : (stepMatch img v d t m).2 with _ | _
    · rw [stepMatch_false_fst img v d t m hb]
      simp only [Bool.false_or]
      rw [ih t]
      constructor
      · rintro h m3 (rfl | hm3)
        · exact hb
        · exact h m3 hm3
      · intro h m3 hm3
        exact h m3 (Or.inr hm3)
    · simp only [Bool.false_or]
      rw [rewriteLoop_acc_true]
      constructor
      · intro h; exact absurd h (by simp)
      · intro h
        exact absurd hb (by simp [h m (Or.inl rfl)])

theorem rewriteLoop_dry_fst (img v : String) (t : VNode) (u : Bool) (ms : List MatchRec) :
    (rewriteLoop img v true t u ms).1 = t := by
  induction ms generalizing t u with
  | nil => rfl
  | cons m ms ih =>
    simp only [rewriteLoop]
    rw [show (stepMatch img v true t m).1 = t from stepMatch_dry_fst img v t m]
    exact ih t _

theorem bool_eq_of_false_iff {a b : Bool} (h : a = false ↔ b = false) : a = b := by
  cases a <;> cases b <;> simp_all

theorem rewriteLoop_snd_dry_indep (img v : String) (d dp : Bool) (t : VNode)
    (ms : List MatchRec) :
    (rewriteLoop img v d t false ms).2 = (rewriteLoop img v dp t false ms).2 := by
  apply bool_eq_of_false_iff
  rw [rewriteLoop_false_iff, rewriteLoop_false_iff]
  constructor <;> intro h m hm
  · rw [← stepMatch_snd_dry_indep img v d dp t m]
    exact h m hm
  · rw [stepMatch_snd_dry_indep img v d dp t m]
    exact h m hm

-- ### Invalid-version lemmas

theorem aspire_invalid (img v : String) (d : Bool) (t : VNode) (p : KPath) (m : VNode)
    (hbad : isValidSemver v = false) :
    aspireFallback img v d t p m = (t, false) := by
  unfold aspireFallback
  split
  · split_ifs <;> simp_all
  · rfl

theorem stepMatch_invalid (img v : String) (d : Bool) (t : VNode) (m : MatchRec)
    (hbad : isValidSemver v = false) :
    stepMatch img v d t m = (t, false) := by
  cases m with
  | structured p =>
    simp only [stepMatch]
    rcases hg : getN p t with _ | mm
    · rfl
    · dsimp only []
      rcases hr : lookupE mm "repository" with _ | rn
      · exact aspire_invalid img v d t p mm hbad
      · cases rn with
        | str repo =>
          dsimp only []
          by_cases hri : repo = img
          · simp only [hri, if_true]
            split_ifs <;> simp_all
          · simp only [if_neg hri]
            exact aspire_invalid img v d t p mm hbad
        | num n => exact aspire_invalid img v d t p mm hbad
        | boolv b => exact aspire_invalid img v d t p mm hbad
        | nullv => exact aspire_invalid img v d t p mm hbad
        | mnil => exact aspire_invalid img v d t p mm hbad
        | mcons k vv r => exact aspire_invalid img v d t p mm hbad
        | snil => exact aspire_invalid img v d t p mm hbad
        | scons h tl => exact aspire_invalid img v d t p mm hbad
  | inl p k vv =>
    simp only [stepMatch]
    split_ifs <;> simp_all

theorem rewriteLoop_invalid (img v : String) (d : Bool) (t : VNode) (u : Bool)
    (ms : List MatchRec) (hbad : isValidSemver v = false) :
    rewriteLoop img v d t u ms = (t, u) := by
  induction ms generalizing t u with
  | nil => rfl
  | cons m ms ih =>
    simp only [rewriteLoop, stepMatch_invalid img v d t m hbad]
    simpa using ih t u

-- ### Claim theorems: C1, C2, C7, C8

/-- C1: for every values tree, image name, new version and dry-run
flag, BumpTagInValuesUniversal returns a nil error, and returns
changed = true exactly when at least one match was classified as an
applied-or-simulated update; with an empty match list, or with every
match skipped (already-current or invalid-version), it returns
changed = false. -/
theorem bumpUniversal_changed_iff_applied (t : VNode) (img v : String) (d : Bool) :
    (BumpTagInValuesUniversal t img v d).2.2 = none ∧
    ((BumpTagInValuesUniversal t img v d).2.1 = true ↔
      ∃ m ∈ findImageBlocksUniversal t img, classify img v t m = .applied) := by
  unfold BumpTagInValuesUniversal
  rcases hms : findImageBlocksUniversal t img with _ | ⟨m, ms⟩
  · simp
  · simp only [List.isEmpty_cons, Bool.false_eq_true, if_false]
    refine ⟨trivial, ?_⟩
    cases hb : (rewriteLoop img v d t false (m :: ms)).2 with
    | false =>
      simp only [Bool.false_eq_true, false_iff]
      rintro ⟨m2, hm2, happ⟩
      have hall := (rewriteLoop_false_iff img v d t (m :: ms)).mp hb
      have := hall m2 hm2
      rw [(stepMatch_snd_iff img v d t m2).mpr happ] at this
      exact Bool.true_eq_false.mp this
    | true =>
      simp only [true_iff]
      by_contra hno
      push_neg at hno
      have hall : ∀ m2 ∈ m :: ms, (stepMatch img v d t m2).2 = false := by
        intro m2 hm2
        cases hs : (stepMatch img v d t m2).2 with
        | false => rfl
        | true => exact absurd ((stepMatch_snd_iff img v d t m2).mp hs) (hno m2 hm2)
      have := (rewriteLoop_false_iff img v d t (m :: ms)).mpr hall
      rw [hb] at this
      exact Bool.true_eq_false.mp this

/-- C2: running with dry_run = true leaves the tree unchanged, and the
changed result of a dry run equals the changed result of a real run on
the same tree (so a dry run reports true exactly when an update would
have applied for real). -/
theorem bumpUniversal_dry_run_purity (t : VNode) (img v : String) :
    (BumpTagInValuesUniversal t img v true).1 = t ∧
    (BumpTagInValuesUniversal t img v true).2.1 =
      (BumpTagInValuesUniversal t img v false).2.1 := by
  unfold BumpTagInValuesUniversal
  rcases hms : findImageBlocksUniversal t img with _ | ⟨m, ms⟩
  · simp
  · simp only [List.isEmpty_cons, Bool.false_eq_true, if_false]
    exact ⟨rewriteLoop_dry_fst img v t false (m :: ms),
      rewriteLoop_snd_dry_indep img v true false t (m :: ms)⟩

/-- C7: an update to a version that fails semver validation never
mutates the tree and reports changed = false with a nil error; and in
a multi-image call, removing such an entry from the update directive
does not change the resulting tree or the count of changed images
(other images' valid updates still apply). -/
theorem bumpUniversal_invalid_version_isolated (t : VNode) (img bad : String) (d : Bool)
    (hbad : isValidSemver bad = false) :
    BumpTagInValuesUniversal t img bad d = (t, false, none) ∧
    ∀ us1 us2 : List (String × String),
      bumpMultipleUniversal t (us1 ++ (img, bad) :: us2) d =
        bumpMultipleUniversal t (us1 ++ us2) d := by
  have hb : ∀ t2 : VNode, BumpTagInValuesUniversal t2 img bad d = (t2, false, none) := by
    intro t2
    unfold BumpTagInValuesUniversal
    rcases hms : findImageBlocksUniversal t2 img with _ | ⟨m, ms⟩
    · simp
    · simp only [List.isEmpty_cons, Bool.false_eq_true, if_false]
      rw [rewriteLoop_invalid img bad d t2 false (m :: ms) hbad]
  refine ⟨hb t, ?_⟩
  intro us1 us2
  induction us1 generalizing t with
  | nil =>
    simp only [List.nil_append, bumpMultipleUniversal]
    rw [hb t]
    simp
  | cons hd us1 ih =>
    obtain ⟨a, b⟩ := hd
    simp only [List.cons_append, bumpMultipleUniversal, List.append_eq]
    rw [ih (BumpTagInValuesUniversal t a b d).1]

/-- C7 witness: concrete instance with the invalid version
"not-a-version" alongside a valid update for another image. -/
theorem bumpUniversal_invalid_version_isolated_witness :
    isValidSemver "not-a-version" = false ∧
    (BumpTagInValuesUniversal
        (.mcons "api" (.mcons "repository" (.str "web") (.mcons "tag" (.str "1.0.0") .mnil)) .mnil)
        "web" "not-a-version" false = (.mcons "api" (.mcons "repository" (.str "web")
          (.mcons "tag" (.str "1.0.0") .mnil)) .mnil, false, none) ∧
      ∀ us1 us2 : List (String × String),
        bumpMultipleUniversal
            (.mcons "api" (.mcons "repository" (.str "web") (.mcons "tag" (.str "1.0.0") .mnil)) .mnil)
            (us1 ++ ("web", "not-a-version") :: us2) false =
          bumpMultipleUniversal
            (.mcons "api" (.mcons "repository" (.str "web") (.mcons "tag" (.str "1.0.0") .mnil)) .mnil)
            (us1 ++ us2) false) :=
  ⟨by decide, bumpUniversal_invalid_version_isolated
    (.mcons "api" (.mcons "repository" (.str "web") (.mcons "tag" (.str "1.0.0") .mnil)) .mnil)
    "web" "not-a-version" false (by decide)⟩

/-- C8: BumpTagInValues (single-image structured path) returns
changed = false exactly when findImageBlocks finds nothing; with at
least one match it returns true even when every match is skipped, as
the concrete already-current conjunct shows; the error is nil. -/
theorem bumpTagInValues_true_iff_matched (t : VNode) (img v : String) (d : Bool) :
    ((BumpTagInValues t img v d).2.1 = true ↔ findImageBlocks t img ≠ []) ∧
    (BumpTagInValues t img v d).2.2 = none ∧
    (BumpTagInValues
        (.mcons "repository" (.str "img") (.mcons "tag" (.str "1.2.3") .mnil))
        "img" "1.2.3" false).2.1 = true := by
  refine ⟨?_, ?_, by decide⟩ <;>
    · unfold BumpTagInValues
      rcases hms : findImageBlocks t img with _ | ⟨p, ps⟩ <;> simp

-- ### Semver: takeWhileC decomposition lemmas

theorem takeWhileC_sound (p : Char → Bool) (cs : List Char) :
    cs = (takeWhileC p cs).1 ++ (takeWhileC p cs).2 ∧
    (takeWhileC p cs).1.all p = true ∧
    (∀ c cs2, (takeWhileC p cs).2 = c :: cs2 → p c = false) := by
  induction cs with
  | nil => exact ⟨rfl, rfl, by intro c cs2 h; cases h⟩
  | cons c cs ih =>
    by_cases hc : p c
    · simp only [takeWhileC, hc, if_true]
      refine ⟨by rw [List.cons_append, ← ih.1], ?_, ih.2.2⟩
      simp [hc, ih.2.1]
    · simp only [takeWhileC, hc, if_false]
      refine ⟨rfl, rfl, ?_⟩
      rintro c2 cs2 h
      cases h
      simpa using hc

theorem takeWhileC_exact (p : Char → Bool) (as bs : List Char)
    (ha : as.all p = true) (hb : ∀ c cs2, bs = c :: cs2 → p c = false) :
    takeWhileC p (as ++ bs) = (as, bs) := by
  induction as with
  | nil =>
    cases bs with
    | nil => rfl
    | cons c cs2 =>
      have := hb c cs2 rfl
      simp [takeWhileC, this]
  | cons a as ih =>
    simp only [List.all_cons, Bool.and_eq_true] at ha
    simp [takeWhileC, ha.1, ih ha.2]

-- ### Semver: digitsDot lemmas

theorem digitsDot_sound (cs rest : List Char) (h : digitsDot cs = some rest) :
    ∃ ds, cs = ds ++ '.' :: rest ∧ ds ≠ [] ∧ ds.all isDigitC = true := by
  unfold digitsDot at h
  obtain ⟨hsplit, hall, hhead⟩ := takeWhileC_sound isDigitC cs
  split at h
  · cases h
  · rename_i hne
    split at h
    · rename_i rest2 heq
      cases h
      refine ⟨(takeWhileC isDigitC cs).1, ?_, ?_, hall⟩
      · rw [← heq]
        exact hsplit
      · intro hempty
        rw [hempty] at hne
        simp at hne
    · cases h
theorem digitsDot_exact (ds rest : List Char) (hne : ds ≠ [])
    (hall : ds.all isDigitC = true) :
    digitsDot (ds ++ '.' :: rest) = some rest := by
  unfold digitsDot
  rw [takeWhileC_exact isDigitC ds ('.' :: rest) hall
    (by rintro c cs2 ⟨⟩; rfl)]
  simp [hne]

-- ### Semver: spec-side shape predicates (stated from the spec text:
-- optional leading v, MAJOR.MINOR.PATCH as digit runs, optional
-- "-prerelease" and "+build" of alphanumerics, dots and hyphens)

def SemverTailShape (rest : List Char) : Prop :=
  ∃ pre bld : List Char,
    rest = pre ++ bld ∧
    (pre = [] ∨ ∃ ps, pre = '-' :: ps ∧ ps ≠ [] ∧ ps.all isIdentC = true) ∧
    (bld = [] ∨ ∃ bs, bld = '+' :: bs ∧ bs ≠ [] ∧ bs.all isIdentC = true)

def SemverCoreShape (cs : List Char) : Prop :=
  ∃ d1 d2 d3 rest : List Char,
    cs = d1 ++ '.' :: (d2 ++ '.' :: (d3 ++ rest)) ∧
    d1 ≠ [] ∧ d2 ≠ [] ∧ d3 ≠ [] ∧
    d1.all isDigitC = true ∧ d2.all isDigitC = true ∧ d3.all isDigitC = true ∧
    SemverTailShape rest

def SemverShapeL (cs : List Char) : Prop :=
  SemverCoreShape cs ∨ ∃ body, cs = 'v' :: body ∧ SemverCoreShape body

/-- The language the spec describes for isValidSemver. -/
def SemverShape (s : String) : Prop := SemverShapeL s.data

theorem semverBuildPart_iff (cs : List Char) :
    semverBuildPart cs = true ↔
      (cs = [] ∨ ∃ bs, cs = '+' :: bs ∧ bs ≠ [] ∧ bs.all isIdentC = true) := by
  constructor
  · intro h
    unfold semverBuildPart at h
    split at h
    · exact Or.inl rfl
    · rename_i rest
      obtain ⟨hsplit, hall, hhead⟩ := takeWhileC_sound isIdentC rest
      rw [Bool.and_eq_true, Bool.not_eq_true', List.isEmpty_eq_false] at h
      have h2 : (takeWhileC isIdentC rest).2 = [] := List.isEmpty_iff.mp h.2
      refine Or.inr ⟨rest, rfl, ?_, ?_⟩
      · intro he
        subst he
        exact h.1 rfl
      · rw [hsplit, h2, List.append_nil]
        exact hall
    · cases h
  · rintro (rfl | ⟨bs, rfl, hne, hall⟩)
    · rfl
    · show semverBuildPart ('+' :: bs) = true
      unfold semverBuildPart
      have hx : takeWhileC isIdentC (bs ++ []) = (bs, []) :=
        takeWhileC_exact isIdentC bs [] hall (by rintro c cs2 ⟨⟩)
      rw [List.append_nil] at hx
      simp [hx, hne]

theorem semverAfterPatch_iff (cs : List Char) :
    semverAfterPatch cs = true ↔ SemverTailShape cs := by
  constructor
  · intro h
    unfold semverAfterPatch at h
    split at h
    · rename_i rest
      obtain ⟨hsplit, hall, hhead⟩ := takeWhileC_sound isIdentC rest
      rw [Bool.and_eq_true, Bool.not_eq_true', List.isEmpty_eq_false] at h
      refine ⟨'-' :: (takeWhileC isIdentC rest).1, (takeWhileC isIdentC rest).2,
        by rw [List.cons_append, ← hsplit], Or.inr ⟨_, rfl, h.1, hall⟩, ?_⟩
      rcases (semverBuildPart_iff _).mp h.2 with h2 | ⟨bs, h2, hne, hb⟩
      · exact Or.inl h2
      · exact Or.inr ⟨bs, h2, hne, hb⟩
    · rename_i hnotdash
      rcases (semverBuildPart_iff cs).mp h with rfl | ⟨bs, rfl, hne, hb⟩
      · exact ⟨[], [], rfl, Or.inl rfl, Or.inl rfl⟩
      · exact ⟨[], '+' :: bs, rfl, Or.inl rfl, Or.inr ⟨bs, rfl, hne, hb⟩⟩
  · rintro ⟨pre, bld, rfl, hpre, hbld⟩
    have hbld2 : semverBuildPart bld = true := by
      rcases hbld with rfl | ⟨bs, rfl, hne, hb⟩
      · rfl
      · exact (semverBuildPart_iff _).mpr (Or.inr ⟨bs, rfl, hne, hb⟩)
    rcases hpre with rfl | ⟨ps, rfl, hne, hp⟩
    · simp only [List.nil_append]
      rcases hbld with rfl | ⟨bs, rfl, _, _⟩
      · exact hbld2
      · exact hbld2
    · show semverAfterPatch ('-' :: (ps ++ bld)) = true
      have hx : takeWhileC isIdentC (ps ++ bld) = (ps, bld) := by
        apply takeWhileC_exact isIdentC ps bld hp
        rintro c cs2 hc
        rcases hbld with rfl | ⟨bs, hb2, _, _⟩
        · cases hc
        · rw [hb2] at hc
          cases hc
          rfl
      show (!(takeWhileC isIdentC (ps ++ bld)).1.isEmpty &&
        semverBuildPart (takeWhileC isIdentC (ps ++ bld)).2) = true
      rw [hx]
      simp [hne, hbld2]

theorem semverCore_iff (cs : List Char) :
    semverCore cs = true ↔ SemverCoreShape cs := by
  constructor
  · intro h
    unfold semverCore at h
    rcases h1 : digitsDot cs with _ | cs2
    · rw [h1] at h
      simp at h
    · rw [h1] at h
      dsimp only [] at h
      rcases h2 : digitsDot cs2 with _ | cs3
      · rw [h2] at h
        simp at h
      · rw [h2] at h
        dsimp only [] at h
        obtain ⟨d1, hcs, hd1ne, hd1⟩ := digitsDot_sound cs cs2 h1
        obtain ⟨d2, hcs2, hd2ne, hd2⟩ := digitsDot_sound cs2 cs3 h2
        obtain ⟨hsplit, hall, hhead⟩ := takeWhileC_sound isDigitC cs3
        rw [Bool.and_eq_true, Bool.not_eq_true', List.isEmpty_eq_false] at h
        refine ⟨d1, d2, (takeWhileC isDigitC cs3).1, (takeWhileC isDigitC cs3).2,
          ?_, hd1ne, hd2ne, h.1, hd1, hd2, hall, (semverAfterPatch_iff _).mp h.2⟩
        rw [hcs, hcs2, ← hsplit]
  · rintro ⟨d1, d2, d3, rest, rfl, h1ne, h2ne, h3ne, h1d, h2d, h3d, htail⟩
    unfold semverCore
    rw [digitsDot_exact d1 _ h1ne h1d]
    dsimp only []
    rw [digitsDot_exact d2 _ h2ne h2d]
    dsimp only []
    have hx : takeWhileC isDigitC (d3 ++ rest) = (d3, rest) := by
      apply takeWhileC_exact isDigitC d3 rest h3d
      rintro c cs2 hc
      obtain ⟨pre, bld, hrest, hpre, hbld⟩ := htail
      rcases hpre with rfl | ⟨ps, rfl, _, _⟩
      · rcases hbld with rfl | ⟨bs, hb2, _, _⟩
        · rw [hrest] at hc; cases hc
        · rw [hrest, List.nil_append, hb2] at hc
          cases hc
          rfl
      · rw [hrest] at hc
        cases hc
        rfl
    rw [hx]
    simp [h3ne, (semverAfterPatch_iff rest).mpr htail]

theorem digit_not_v {c : Char} (h : isDigitC c = true) : c ≠ 'v' := by
  intro rfl2
  rw [rfl2] at h
  cases h

theorem isValidSemverL_iff (cs : List Char) :
    isValidSemverL cs = true ↔ SemverShapeL cs := by
  cases cs with
  | nil =>
    constructor
    · intro h; cases h
    · rintro (⟨d1, d2, d3, rest, heq, h1ne, _⟩ | ⟨body, heq, _⟩)
      · cases d1 with
        | nil => exact absurd rfl h1ne
        | cons a as => cases heq
      · cases heq
  | cons c rest =>
    by_cases hv : c = 'v'
    · subst hv
      show semverCore rest = true ↔ SemverShapeL ('v' :: rest)
      rw [semverCore_iff]
      constructor
      · intro h
        exact Or.inr ⟨rest, rfl, h⟩
      · rintro (⟨d1, d2, d3, r2, heq, h1ne, h2ne, h3ne, h1d, h2d, h3d, htail⟩ | ⟨body, heq, hb⟩)
        · cases d1 with
          | nil => exact absurd rfl h1ne
          | cons a as =>
            rw [List.cons_append] at heq
            cases heq
            exact absurd rfl (digit_not_v (by simp [List.all_cons] at h1d; exact h1d.1))
        · cases heq
          exact hb
    · have hstrip : isValidSemverL (c :: rest) = semverCore (c :: rest) := by
        unfold isValidSemverL
        congr 1
        split
        · rename_i heq
          cases heq
          exact absurd rfl hv
        · rfl
      rw [hstrip, semverCore_iff]
      constructor
      · intro h
        exact Or.inl h
      · rintro (h | ⟨body, heq, hb⟩)
        · exact h
        · cases heq
          exact absurd rfl hv

/-- C6: isValidSemver accepts exactly the strings of the form
optional leading v, MAJOR.MINOR.PATCH as nonempty digit runs,
optional "-" prerelease and optional "+" build parts over
alphanumerics, dots and hyphens; in particular it rejects the empty
string. -/
theorem isValidSemver_iff_shape :
    (∀ s : String, isValidSemver s = true ↔ SemverShape s) ∧
      isValidSemver "" = false := by
  exact ⟨fun s => isValidSemverL_iff s.data, by decide⟩

-- ### Path algebra

/-- A proper Go map value: an mcons chain ending in mnil. -/
def isMapChain : VNode → Bool
  | .mnil => true
  | .mcons _ _ r => isMapChain r
  | _ => false

theorem lookupE_setE (m : VNode) (k j : String) (w : VNode) (hm : isMapChain m = true) :
    lookupE (setE m k w) j = if j = k then some w else lookupE m j := by
  induction m with
  | mcons k2 v r ihv ihr =>
    simp only [isMapChain] at hm
    by_cases hk : k2 = k
    · subst hk
      simp only [setE, if_pos rfl]
      by_cases hj : k2 = j
      · subst hj
        simp [lookupE]
      · simp only [lookupE, if_neg hj]
        rw [if_neg (fun h => hj (h : j = k2).symm)]
    · simp only [setE, if_neg hk]
      by_cases hj : k2 = j
      · subst hj
        rw [if_neg hk]
        simp [lookupE]
      · simp only [lookupE, if_neg hj]
        exact ihr hm
  | mnil =>
    simp only [setE]
    by_cases hj : j = k
    · subst hj
      simp [lookupE]
    · rw [if_neg hj]
      simp only [lookupE]
      rw [if_neg (fun h => hj (h : k = j).symm)]
  | _ => cases hm

theorem lookupE_mapFirst (k0 j : String) (f : VNode → VNode) (t : VNode) :
    lookupE (mapFirst k0 f t) j =
      if j = k0 then (lookupE t k0).map f else lookupE t j := by
  induction t with
  | mcons k v r ihv ihr =>
    by_cases hk : k = k0
    · subst hk
      simp only [mapFirst, if_pos rfl, lookupE]
      by_cases hj : k = j
      · subst hj
        simp [lookupE]
      · rw [if_neg hj, if_neg hj, if_neg (fun h => hj (h : j = k).symm)]
    · simp only [mapFirst, if_neg hk, lookupE]
      by_cases hj : k = j
      · subst hj
        simp [lookupE, hk]
      · rw [if_neg hj, if_neg hj, ihr]
  | str s => by_cases hj : j = k0 <;> simp [mapFirst, lookupE, hj]
  | num n => by_cases hj : j = k0 <;> simp [mapFirst, lookupE, hj]
  | boolv b => by_cases hj : j = k0 <;> simp [mapFirst, lookupE, hj]
  | nullv => by_cases hj : j = k0 <;> simp [mapFirst, lookupE, hj]
  | mnil => by_cases hj : j = k0 <;> simp [mapFirst, lookupE, hj]
  | snil => by_cases hj : j = k0 <;> simp [mapFirst, lookupE, hj]
  | scons h tl ihh ihtl => by_cases hj : j = k0 <;> simp [mapFirst, lookupE, hj]

theorem seqGet_seqMap (i j : Nat) (f : VNode → VNode) (t : VNode) :
    seqGet j (seqMap i f t) =
      if j = i then (seqGet i t).map f else seqGet j t := by
  induction t generalizing i j with
  | scons h tl ihh ihtl =>
    cases i with
    | zero =>
      cases j with
      | zero => simp [seqMap, seqGet]
      | succ j2 => simp [seqMap, seqGet]
    | succ i2 =>
      cases j with
      | zero => simp [seqMap, seqGet]
      | succ j2 =>
        simp only [seqMap, seqGet, ihtl i2 j2]
        by_cases hj : j2 = i2
        · simp [hj]
        · rw [if_neg hj, if_neg (fun h => hj (Nat.succ_injective h))]
  | _ =>
    cases i <;> cases j <;>
      · simp only [seqMap, seqGet]
        split <;> simp [seqGet]

theorem getN_updAt_self (p : KPath) (k : String) (w : VNode) (t m : VNode)
    (hm : getN p t = some m) :
    getN p (updAt p k w t) = some (setE m k w) := by
  induction p generalizing t with
  | nil =>
    cases hm
    rfl
  | cons st q ih =>
    cases st with
    | key k0 =>
      simp only [getN] at hm
      rcases hl : lookupE t k0 with _ | v
      · rw [hl] at hm; cases hm
      · rw [hl] at hm
        simp only [updAt, getN, lookupE_mapFirst, if_pos rfl, hl, Option.map_some]
        exact ih v hm
    | idx i =>
      simp only [getN] at hm
      rcases hl : seqGet i t with _ | v
      · rw [hl] at hm; cases hm
      · rw [hl] at hm
        simp only [updAt, getN, seqGet_seqMap, if_pos rfl, hl, Option.map_some]
        exact ih v hm

theorem lookupE_some_mapShape {m : VNode} {j : String} {x : VNode}
    (h : lookupE m j = some x) : isMapShape m = true := by
  cases m <;> first | rfl | cases h


/-- The ok flag of the type assertion image["tag"].(string): true
exactly when the map has a "tag" key holding a string. -/
def tagAssertOk (m : VNode) : Bool :=
  match lookupE m "tag" with
  | some (.str _) => true
  | _ => false

theorem oldTagOf_of_assert_false (m : VNode) (h : tagAssertOk m = false) :
    oldTagOf m = "" := by
  unfold oldTagOf
  rcases hl : lookupE m "tag" with _ | n
  · rfl
  · cases n with
    | str s => simp [tagAssertOk, hl] at h
    | _ => rfl

-- ### Claim theorems: C4, C9

/-- C4: for an inline match, the current version compared by the
already-current skip is the substring after the last colon of the
stored value (column-tolerant, e.g. "registry:5000/img:1.2.3" has
version "1.2.3"), and a real application writes exactly
image_name ++ ":" ++ new_version into the parent mapping at the
recorded key, regardless of what preceded the last colon. -/
theorem inline_match_rewrite (img newV vOld : String) (t : VNode) (p : KPath) (k : String)
    (hpref : strHasPref (img ++ ":") vOld = true) :
    (lastColonSegment vOld = newV →
      stepMatch img newV false t (.inl p k vOld) = (t, false)) ∧
    (lastColonSegment vOld ≠ newV → isValidSemver newV = true →
      stepMatch img newV false t (.inl p k vOld) =
        (updAt p k (.str (img ++ ":" ++ newV)) t, true) ∧
      ∀ m, getN p t = some m → isMapChain m = true →
        posVal p k (updAt p k (.str (img ++ ":" ++ newV)) t) =
          some (.str (img ++ ":" ++ newV))) ∧
    lastColonSegment "registry:5000/img:1.2.3" = "1.2.3" := by
  refine ⟨?_, ?_, by decide⟩
  · intro hcur
    simp [stepMatch, hpref, hcur]
  · intro hcur hval
    refine ⟨by simp [stepMatch, hpref, hcur, hval], ?_⟩
    intro m hm hchain
    unfold posVal
    rw [getN_updAt_self p k (.str (img ++ ":" ++ newV)) t m hm]
    dsimp only []
    rw [lookupE_setE m k k (.str (img ++ ":" ++ newV)) hchain, if_pos rfl]

/-- C4 witness at a concrete registry-with-port value. -/
theorem inline_match_rewrite_witness :
    (lastColonSegment "registry:5000/img:1.2.3" = "1.3.9" →
      stepMatch "registry:5000/img" "1.3.9" false
        (.mcons "a" (.str "registry:5000/img:1.2.3") .mnil)
        (.inl [] "a" "registry:5000/img:1.2.3") =
        (.mcons "a" (.str "registry:5000/img:1.2.3") .mnil, false)) ∧
    (lastColonSegment "registry:5000/img:1.2.3" ≠ "1.3.9" →
      isValidSemver "1.3.9" = true →
      stepMatch "registry:5000/img" "1.3.9" false
        (.mcons "a" (.str "registry:5000/img:1.2.3") .mnil)
        (.inl [] "a" "registry:5000/img:1.2.3") =
        (updAt [] "a" (.str ("registry:5000/img" ++ ":" ++ "1.3.9"))
          (.mcons "a" (.str "registry:5000/img:1.2.3") .mnil), true) ∧
      ∀ m, getN [] (.mcons "a" (.str "registry:5000/img:1.2.3") .mnil) = some m →
        isMapChain m = true →
        posVal [] "a" (updAt [] "a" (.str ("registry:5000/img" ++ ":" ++ "1.3.9"))
          (.mcons "a" (.str "registry:5000/img:1.2.3") .mnil)) =
          some (.str ("registry:5000/img" ++ ":" ++ "1.3.9"))) ∧
    lastColonSegment "registry:5000/img:1.2.3" = "1.2.3" :=
  inline_match_rewrite "registry:5000/img" "1.3.9" "registry:5000/img:1.2.3"
    (.mcons "a" (.str "registry:5000/img:1.2.3") .mnil) [] "a" (by decide)

/-- C9: a structured match whose "tag" key is absent or holds a
non-string is treated as having current tag "": the already-current
skip cannot fire for a nonempty new version, and a real run with a
valid semver overwrites the tag with the string new version. -/
theorem structured_nonstring_tag_overwritten (img newV : String) (t : VNode) (p : KPath)
    (m : VNode) (hm : getN p t = some m) (hchain : isMapChain m = true)
    (hrepo : lookupE m "repository" = some (.str img))
    (htag : tagAssertOk m = false)
    (hne : newV ≠ "") (hval : isValidSemver newV = true) :
    oldTagOf m = "" ∧
    stepMatch img newV false t (.structured p) = (updAt p "tag" (.str newV) t, true) ∧
    posVal p "tag" (updAt p "tag" (.str newV) t) = some (.str newV) := by
  have hold : oldTagOf m = "" := oldTagOf_of_assert_false m htag
  refine ⟨hold, ?_, ?_⟩
  · simp only [stepMatch]
    rw [hm]
    dsimp only []
    rw [hrepo]
    dsimp only []
    rw [if_pos rfl, hold]
    rw [if_neg (fun h => hne h.symm)]
    simp [hval]
  · unfold posVal
    rw [getN_updAt_self p "tag" (.str newV) t m hm]
    dsimp only []
    rw [lookupE_setE m "tag" "tag" (.str newV) hchain, if_pos rfl]

/-- C9 witness: a structured block whose tag holds the number 7. -/
theorem structured_nonstring_tag_overwritten_witness :
    oldTagOf (.mcons "repository" (.str "api") (.mcons "tag" (.num 7) .mnil)) = "" ∧
    stepMatch "api" "2.0.0" false
      (.mcons "image" (.mcons "repository" (.str "api") (.mcons "tag" (.num 7) .mnil)) .mnil)
      (.structured [.key "image"]) =
      (updAt [.key "image"] "tag" (.str "2.0.0")
        (.mcons "image" (.mcons "repository" (.str "api") (.mcons "tag" (.num 7) .mnil)) .mnil),
       true) ∧
    posVal [.key "image"] "tag"
      (updAt [.key "image"] "tag" (.str "2.0.0")
        (.mcons "image" (.mcons "repository" (.str "api") (.mcons "tag" (.num 7) .mnil)) .mnil)) =
      some (.str "2.0.0") :=
  structured_nonstring_tag_overwritten "api" "2.0.0"
    (.mcons "image" (.mcons "repository" (.str "api") (.mcons "tag" (.num 7) .mnil)) .mnil)
    [.key "image"] (.mcons "repository" (.str "api") (.mcons "tag" (.num 7) .mnil))
    (by decide) (by decide) (by decide) (by decide) (by decide) (by decide)

/-- C3 counterexample: a structured block whose tag holds an
inline-style string.  The first non-dry-run call applies (changed =
true), but the inline match then rewrites the tag back to
"img:2.0.0", so the second call again reports changed = true,
contradicting the claimed idempotence. -/
theorem bumpUniversal_not_idempotent_cex :
    (BumpTagInValuesUniversal
        (.mcons "m" (.mcons "repository" (.str "img") (.mcons "tag" (.str "img:1.0.0") .mnil)) .mnil)
        "img" "2.0.0" false).2.1 = true ∧
    (BumpTagInValuesUniversal
        (BumpTagInValuesUniversal
          (.mcons "m" (.mcons "repository" (.str "img") (.mcons "tag" (.str "img:1.0.0") .mnil)) .mnil)
          "img" "2.0.0" false).1
        "img" "2.0.0" false).2.1 = true ∧
    isValidSemver "2.0.0" = true := by
  refine ⟨by decide, by decide, by decide⟩

-- ### Matcher characterization

/-- A structured-match occurrence: the node at relative path q is a
mapping whose "repository" key holds the image name. -/
def StructHit (img : String) (n : VNode) (q : KPath) : Prop :=
  ∃ x, getN q n = some x ∧ lookupE x "repository" = some (.str img)

/-- An inline-match occurrence: the mapping at relative path q stores
under key j a string with the image prefix. -/
def InlineHit (img : String) (n : VNode) (q : KPath) (j s : String) : Prop :=
  ∃ x, getN q n = some x ∧ lookupE x j = some (.str s) ∧
    strHasPref (img ++ ":") s = true

/-- What walk(n) with accumulated path p0 should emit. -/
def WalkSpec (img : String) (p0 : KPath) (n : VNode) (mr : MatchRec) : Prop :=
  (∃ q, mr = .structured (p0 ++ q) ∧ StructHit img n q) ∨
  (∃ q j s, mr = .inl (p0 ++ q) j s ∧ InlineHit img n q j s)

/-- What the key/value loop over the remaining entries n should
emit. -/
def EntsSpec (img : String) (p0 : KPath) (n : VNode) (mr : MatchRec) : Prop :=
  ∃ j v, lookupE n j = some v ∧
    ((∃ s, v = .str s ∧ strHasPref (img ++ ":") s = true ∧ mr = .inl p0 j s) ∨
     ((∀ s, v = .str s → strHasPref (img ++ ":") s = false) ∧
       WalkSpec img (p0 ++ [.key j]) v mr))

/-- What the slice loop with i elements consumed should emit. -/
def ElemsSpec (img : String) (p0 : KPath) (i : Nat) (n : VNode) (mr : MatchRec) : Prop :=
  ∃ jj v, seqGet jj n = some v ∧ WalkSpec img (p0 ++ [.idx (i + jj)]) v mr

theorem walkSpec_leaf (img : String) (p0 : KPath) (n : VNode) (mr : MatchRec)
    (hlook : ∀ j, lookupE n j = none) (hseq : ∀ i, seqGet i n = none) :
    ¬ WalkSpec img p0 n mr := by
  have hget : ∀ q x, getN q n = some x → x = n := by
    intro q x hx
    cases q with
    | nil => cases hx; rfl
    | cons st q2 =>
      cases st with
      | key j =>
        simp only [getN, hlook j] at hx
        cases hx
      | idx i =>
        simp only [getN, hseq i] at hx
        cases hx
  rintro (⟨q, rfl, x, hx, hrepo⟩ | ⟨q, j, s, rfl, x, hx, hlookx, hpref⟩)
  · rw [hget q x hx] at hrepo
    rw [hlook "repository"] at hrepo
    cases hrepo
  · rw [hget q x hx] at hlookx
    rw [hlook j] at hlookx
    cases hlookx

theorem seqGet_nonseq (i : Nat) (n : VNode) (hn : isSeqShape n = false) :
    seqGet i n = none := by
  cases n <;> cases i <;> first | rfl | cases hn

theorem lookupE_nonmap (j : String) (n : VNode) (hn : isMapShape n = false) :
    lookupE n j = none := by
  cases n <;> first | rfl | cases hn

theorem walkSpec_lift_key (img : String) (p0 : KPath) (n v : VNode) (j : String)
    (mr : MatchRec) (hl : lookupE n j = some v)
    (hw : WalkSpec img (p0 ++ [.key j]) v mr) : WalkSpec img p0 n mr := by
  have hstep : ∀ q, getN (PStep.key j :: q) n = getN q v := by
    intro q
    simp [getN, hl]
  rcases hw with ⟨q, rfl, x, hx, hrepo⟩ | ⟨q, j2, s, rfl, x, hx, hlookx, hpref⟩
  · exact Or.inl ⟨.key j :: q, by simp, x, by rw [hstep]; exact hx, hrepo⟩
  · exact Or.inr ⟨.key j :: q, j2, s, by simp, x, by rw [hstep]; exact hx, hlookx, hpref⟩

theorem walkSpec_lift_idx (img : String) (p0 : KPath) (n v : VNode) (i : Nat)
    (mr : MatchRec) (hl : seqGet i n = some v)
    (hw : WalkSpec img (p0 ++ [.idx i]) v mr) : WalkSpec img p0 n mr := by
  have hstep : ∀ q, getN (PStep.idx i :: q) n = getN q v := by
    intro q
    simp [getN, hl]
  rcases hw with ⟨q, rfl, x, hx, hrepo⟩ | ⟨q, j2, s, rfl, x, hx, hlookx, hpref⟩
  · exact Or.inl ⟨.idx i :: q, by simp, x, by rw [hstep]; exact hx, hrepo⟩
  · exact Or.inr ⟨.idx i :: q, j2, s, by simp, x, by rw [hstep]; exact hx, hlookx, hpref⟩

theorem walkSpec_str_none (img : String) (p0 : KPath) (s : String) (mr : MatchRec) :
    ¬ WalkSpec img p0 (.str s) mr :=
  walkSpec_leaf img p0 (.str s) mr (fun _ => rfl) (fun i => by cases i <;> rfl)

theorem getN_scalar (n : VNode) (h1 : isMapShape n = false) (h2 : isSeqShape n = false)
    (q : KPath) (x : VNode) (hx : getN q n = some x) : x = n := by
  cases q with
  | nil => cases hx; rfl
  | cons st q2 =>
    cases st with
    | key j =>
      simp only [getN, lookupE_nonmap j n h1] at hx
      cases hx
    | idx i =>
      simp only [getN, seqGet_nonseq i n h2] at hx
      cases hx

theorem structCheck_mem (img : String) (p : KPath) (n : VNode) (mr : MatchRec) :
    mr ∈ structCheck img p n ↔
      (lookupE n "repository" = some (.str img) ∧ mr = .structured p) := by
  unfold structCheck
  rcases hl : lookupE n "repository" with _ | x
  · simp
  · cases x with
    | str repo =>
      by_cases hri : repo = img
      · subst hri
        simp
      · simp only [if_neg hri, List.not_mem_nil, false_iff]
        rintro ⟨hx, -⟩
        cases hx
        exact hri rfl
    | _ => simp

theorem walkSpec_mcons_iff (img : String) (p0 : KPath) (k : String) (v r : VNode)
    (mr : MatchRec) :
    WalkSpec img p0 (.mcons k v r) mr ↔
      (lookupE (.mcons k v r) "repository" = some (.str img) ∧ mr = .structured p0) ∨
      EntsSpec img p0 (.mcons k v r) mr := by
  constructor
  · rintro (⟨q, rfl, x, hx, hrepo⟩ | ⟨q, j, s, rfl, x, hx, hlookx, hpref⟩)
    · cases q with
      | nil =>
        cases hx
        exact Or.inl ⟨hrepo, by simp⟩
      | cons st q2 =>
        cases st with
        | key j =>
          simp only [getN] at hx
          rcases hl : lookupE (VNode.mcons k v r) j with _ | v2
          · rw [hl] at hx; cases hx
          · rw [hl] at hx
            refine Or.inr ⟨j, v2, hl, Or.inr ⟨?_, Or.inl ⟨q2, by simp, x, hx, hrepo⟩⟩⟩
            rintro s rfl
            rw [getN_scalar (VNode.str s) rfl rfl q2 x hx] at hrepo
            cases hrepo
        | idx i =>
          simp only [getN, seqGet_nonseq i (VNode.mcons k v r) rfl] at hx
          cases hx
    · cases q with
      | nil =>
        cases hx
        exact Or.inr ⟨j, .str s, hlookx, Or.inl ⟨s, rfl, hpref, by simp⟩⟩
      | cons st q2 =>
        cases st with
        | key j2 =>
          simp only [getN] at hx
          rcases hl : lookupE (VNode.mcons k v r) j2 with _ | v2
          · rw [hl] at hx; cases hx
          · rw [hl] at hx
            refine Or.inr ⟨j2, v2, hl, Or.inr ⟨?_, Or.inr ⟨q2, j, s, by simp, x, hx, hlookx, hpref⟩⟩⟩
            rintro s2 rfl
            rw [getN_scalar (VNode.str s2) rfl rfl q2 x hx] at hlookx
            cases hlookx
        | idx i =>
          simp only [getN, seqGet_nonseq i (VNode.mcons k v r) rfl] at hx
          cases hx
  · rintro (⟨hrepo, rfl⟩ | ⟨j, v2, hlv, (⟨s, rfl, hpref, rfl⟩ | ⟨hnotstr, hw⟩)⟩)
    · exact Or.inl ⟨[], by simp, .mcons k v r, rfl, hrepo⟩
    · exact Or.inr ⟨[], j, s, by simp, .mcons k v r, rfl, hlv, hpref⟩
    · exact walkSpec_lift_key img p0 _ v2 j mr hlv hw

theorem entsSpec_mcons_iff (img : String) (p0 : KPath) (k : String) (v r : VNode)
    (mr : MatchRec) (hkey : hasKeyE r k = false) :
    EntsSpec img p0 (.mcons k v r) mr ↔
      ((∃ s, v = .str s ∧ strHasPref (img ++ ":") s = true ∧ mr = .inl p0 k s) ∨
        ((∀ s, v = .str s → strHasPref (img ++ ":") s = false) ∧
          WalkSpec img (p0 ++ [.key k]) v mr)) ∨
      EntsSpec img p0 r mr := by
  constructor
  · rintro ⟨j, v2, hl, hcase⟩
    simp only [lookupE] at hl
    by_cases hj : k = j
    · subst hj
      rw [if_pos rfl] at hl
      cases hl
      exact Or.inl hcase
    · rw [if_neg hj] at hl
      exact Or.inr ⟨j, v2, hl, hcase⟩
  · rintro (hcase | ⟨j, v2, hl, hcase⟩)
    · exact ⟨k, v, by simp [lookupE], hcase⟩
    · refine ⟨j, v2, ?_, hcase⟩
      have hj : ¬ k = j := by
        rintro rfl
        rw [show lookupE r k = none from ?_] at hl
        · cases hl
        · unfold hasKeyE at hkey
          rcases h2 : lookupE r k with _ | y
          · rfl
          · rw [h2] at hkey
            cases hkey
      simp [lookupE, if_neg hj, hl]

theorem walkSpec_scons_iff (img : String) (p0 : KPath) (h tl : VNode) (mr : MatchRec) :
    WalkSpec img p0 (.scons h tl) mr ↔ ElemsSpec img p0 0 (.scons h tl) mr := by
  constructor
  · rintro (⟨q, rfl, x, hx, hrepo⟩ | ⟨q, j, s, rfl, x, hx, hlookx, hpref⟩)
    · cases q with
      | nil =>
        cases hx
        cases hrepo
      | cons st q2 =>
        cases st with
        | key j =>
          simp only [getN, lookupE_nonmap j (VNode.scons h tl) rfl] at hx
          cases hx
        | idx i =>
          simp only [getN] at hx
          rcases hs : seqGet i (VNode.scons h tl) with _ | v2
          · rw [hs] at hx; cases hx
          · rw [hs] at hx
            exact ⟨i, v2, by simpa using hs,
              Or.inl ⟨q2, by simp [Nat.zero_add], x, hx, hrepo⟩⟩
    · cases q with
      | nil =>
        cases hx
        cases hlookx
      | cons st q2 =>
        cases st with
        | key j2 =>
          simp only [getN, lookupE_nonmap j2 (VNode.scons h tl) rfl] at hx
          cases hx
        | idx i =>
          simp only [getN] at hx
          rcases hs : seqGet i (VNode.scons h tl) with _ | v2
          · rw [hs] at hx; cases hx
          · rw [hs] at hx
            exact ⟨i, v2, by simpa using hs,
              Or.inr ⟨q2, j, s, by simp [Nat.zero_add], x, hx, hlookx, hpref⟩⟩
  · rintro ⟨jj, v2, hs, hw⟩
    exact walkSpec_lift_idx img p0 _ v2 jj mr (by simpa using hs) (by simpa using hw)

theorem elemsSpec_scons_iff (img : String) (p0 : KPath) (i : Nat) (h tl : VNode)
    (mr : MatchRec) :
    ElemsSpec img p0 i (.scons h tl) mr ↔
      WalkSpec img (p0 ++ [.idx i]) h mr ∨ ElemsSpec img p0 (i+1) tl mr := by
  constructor
  · rintro ⟨jj, v2, hs, hw⟩
    cases jj with
    | zero =>
      cases hs
      exact Or.inl (by simpa using hw)
    | succ jj2 =>
      refine Or.inr ⟨jj2, v2, hs, ?_⟩
      have : i + (jj2 + 1) = i + 1 + jj2 := by omega
      rw [← this]
      exact hw
  · rintro (hw | ⟨jj, v2, hs, hw⟩)
    · exact ⟨0, h, rfl, by simpa using hw⟩
    · refine ⟨jj + 1, v2, hs, ?_⟩
      have : i + (jj + 1) = i + 1 + jj := by omega
      rw [this]
      exact hw

theorem entsSpec_no_lookup (img : String) (p0 : KPath) (n : VNode) (mr : MatchRec)
    (h : ∀ j, lookupE n j = none) : ¬ EntsSpec img p0 n mr := by
  rintro ⟨j, v, hl, -⟩
  rw [h j] at hl
  cases hl

theorem elemsSpec_no_seq (img : String) (p0 : KPath) (i : Nat) (n : VNode) (mr : MatchRec)
    (h : ∀ i2, seqGet i2 n = none) : ¬ ElemsSpec img p0 i n mr := by
  rintro ⟨jj, v, hs, -⟩
  rw [h jj] at hs
  cases hs

theorem wf_mcons {k : String} {v r : VNode} (h : wfN (.mcons k v r) = true) :
    isMapShape r = true ∧ hasKeyE r k = false ∧ wfN v = true ∧ wfN r = true := by
  have h2 := h
  unfold wfN at h2
  simp only [Bool.and_eq_true, Bool.not_eq_true'] at h2
  exact ⟨h2.1.1.1, h2.1.1.2, h2.1.2, h2.2⟩

theorem wf_scons {hd tl : VNode} (h : wfN (.scons hd tl) = true) :
    isSeqShape tl = true ∧ wfN hd = true ∧ wfN tl = true := by
  have h2 := h
  unfold wfN at h2
  simp only [Bool.and_eq_true] at h2
  exact ⟨h2.1.1, h2.1.2, h2.2⟩

theorem entryPart_mem_iff (img : String) (p0 : KPath) (k : String) (v : VNode)
    (mr : MatchRec) (hwv : wfN v = true)
    (IHv : ∀ p02 mr2, wfN v = true →
      (mr2 ∈ findAux img .walk p02 v ↔ WalkSpec img p02 v mr2)) :
    mr ∈ (match v with
          | .str s => if strHasPref (img ++ ":") s then [MatchRec.inl p0 k s] else []
          | _ => findAux img .walk (p0 ++ [PStep.key k]) v) ↔
      ((∃ s, v = .str s ∧ strHasPref (img ++ ":") s = true ∧ mr = .inl p0 k s) ∨
        ((∀ s, v = .str s → strHasPref (img ++ ":") s = false) ∧
          WalkSpec img (p0 ++ [.key k]) v mr)) := by
  cases v with
  | str s =>
    by_cases hp : strHasPref (img ++ ":") s = true
    · simp only [hp, if_true, List.mem_singleton]
      constructor
      · rintro rfl
        exact Or.inl ⟨s, rfl, hp, rfl⟩
      · rintro (⟨s2, heq, hp2, rfl⟩ | ⟨-, hw⟩)
        · cases heq
          rfl
        · exact absurd hw (walkSpec_str_none img _ s mr)
    · rw [Bool.not_eq_true] at hp
      simp only [hp, Bool.false_eq_true, if_false, List.not_mem_nil, false_iff]
      rintro (⟨s2, heq, hp2, rfl⟩ | ⟨-, hw⟩)
      · cases heq
        rw [hp] at hp2
        cases hp2
      · exact absurd hw (walkSpec_str_none img _ s mr)
  | num n =>
    dsimp only []
    rw [IHv (p0 ++ [PStep.key k]) mr hwv]
    constructor
    · intro hw
      exact Or.inr ⟨by rintro s ⟨⟩, hw⟩
    · rintro (⟨s, ⟨⟩, -, -⟩ | ⟨-, hw⟩)
      exact hw
  | boolv b =>
    dsimp only []
    rw [IHv (p0 ++ [PStep.key k]) mr hwv]
    constructor
    · intro hw
      exact Or.inr ⟨by rintro s ⟨⟩, hw⟩
    · rintro (⟨s, ⟨⟩, -, -⟩ | ⟨-, hw⟩)
      exact hw
  | nullv =>
    dsimp only []
    rw [IHv (p0 ++ [PStep.key k]) mr hwv]
    constructor
    · intro hw
      exact Or.inr ⟨by rintro s ⟨⟩, hw⟩
    · rintro (⟨s, ⟨⟩, -, -⟩ | ⟨-, hw⟩)
      exact hw
  | mnil =>
    dsimp only []
    rw [IHv (p0 ++ [PStep.key k]) mr hwv]
    constructor
    · intro hw
      exact Or.inr ⟨by rintro s ⟨⟩, hw⟩
    · rintro (⟨s, ⟨⟩, -, -⟩ | ⟨-, hw⟩)
      exact hw
  | mcons k2 v2 r2 =>
    dsimp only []
    rw [IHv (p0 ++ [PStep.key k]) mr hwv]
    constructor
    · intro hw
      exact Or.inr ⟨by rintro s ⟨⟩, hw⟩
    · rintro (⟨s, ⟨⟩, -, -⟩ | ⟨-, hw⟩)
      exact hw
  | snil =>
    dsimp only []
    rw [IHv (p0 ++ [PStep.key k]) mr hwv]
    constructor
    · intro hw
      exact Or.inr ⟨by rintro s ⟨⟩, hw⟩
    · rintro (⟨s, ⟨⟩, -, -⟩ | ⟨-, hw⟩)
      exact hw
  | scons h2 t2 =>
    dsimp only []
    rw [IHv (p0 ++ [PStep.key k]) mr hwv]
    constructor
    · intro hw
      exact Or.inr ⟨by rintro s ⟨⟩, hw⟩
    · rintro (⟨s, ⟨⟩, -, -⟩ | ⟨-, hw⟩)
      exact hw

theorem findAux_char (img : String) (n : VNode) :
    (∀ p0 mr, wfN n = true →
      (mr ∈ findAux img .walk p0 n ↔ WalkSpec img p0 n mr)) ∧
    (∀ p0 mr, wfN n = true →
      (mr ∈ findAux img .ents p0 n ↔ EntsSpec img p0 n mr)) ∧
    (∀ p0 mr i, wfN n = true →
      (mr ∈ findAux img (.elems i) p0 n ↔ ElemsSpec img p0 i n mr)) := by
  induction n with
  | str s =>
    refine ⟨fun p0 mr _ => ?_, fun p0 mr _ => ?_, fun p0 mr i _ => ?_⟩
    · simp only [findAux, List.not_mem_nil, false_iff]
      exact walkSpec_str_none img p0 s mr
    · simp only [findAux, List.not_mem_nil, false_iff]
      exact entsSpec_no_lookup img p0 _ mr (fun _ => rfl)
    · simp only [findAux, List.not_mem_nil, false_iff]
      exact elemsSpec_no_seq img p0 i _ mr (fun i2 => by cases i2 <;> rfl)
  | num nn =>
    refine ⟨fun p0 mr _ => ?_, fun p0 mr _ => ?_, fun p0 mr i _ => ?_⟩
    · simp only [findAux, List.not_mem_nil, false_iff]
      exact walkSpec_leaf img p0 _ mr (fun _ => rfl) (fun i2 => by cases i2 <;> rfl)
    · simp only [findAux, List.not_mem_nil, false_iff]
      exact entsSpec_no_lookup img p0 _ mr (fun _ => rfl)
    · simp only [findAux, List.not_mem_nil, false_iff]
      exact elemsSpec_no_seq img p0 i _ mr (fun i2 => by cases i2 <;> rfl)
  | boolv b =>
    refine ⟨fun p0 mr _ => ?_, fun p0 mr _ => ?_, fun p0 mr i _ => ?_⟩
    · simp only [findAux, List.not_mem_nil, false_iff]
      exact walkSpec_leaf img p0 _ mr (fun _ => rfl) (fun i2 => by cases i2 <;> rfl)
    · simp only [findAux, List.not_mem_nil, false_iff]
      exact entsSpec_no_lookup img p0 _ mr (fun _ => rfl)
    · simp only [findAux, List.not_mem_nil, false_iff]
      exact elemsSpec_no_seq img p0 i _ mr (fun i2 => by cases i2 <;> rfl)
  | nullv =>
    refine ⟨fun p0 mr _ => ?_, fun p0 mr _ => ?_, fun p0 mr i _ => ?_⟩
    · simp only [findAux, List.not_mem_nil, false_iff]
      exact walkSpec_leaf img p0 _ mr (fun _ => rfl) (fun i2 => by cases i2 <;> rfl)
    · simp only [findAux, List.not_mem_nil, false_iff]
      exact entsSpec_no_lookup img p0 _ mr (fun _ => rfl)
    · simp only [findAux, List.not_mem_nil, false_iff]
      exact elemsSpec_no_seq img p0 i _ mr (fun i2 => by cases i2 <;> rfl)
  | snil =>
    refine ⟨fun p0 mr _ => ?_, fun p0 mr _ => ?_, fun p0 mr i _ => ?_⟩
    · simp only [findAux, List.not_mem_nil, false_iff]
      exact walkSpec_leaf img p0 _ mr (fun _ => rfl) (fun i2 => by cases i2 <;> rfl)
    · simp only [findAux, List.not_mem_nil, false_iff]
      exact entsSpec_no_lookup img p0 _ mr (fun _ => rfl)
    · simp only [findAux, List.not_mem_nil, false_iff]
      exact elemsSpec_no_seq img p0 i _ mr (fun i2 => by cases i2 <;> rfl)
  | mnil =>
    refine ⟨fun p0 mr _ => ?_, fun p0 mr _ => ?_, fun p0 mr i _ => ?_⟩
    · simp only [findAux, structCheck_mem]
      constructor
      · rintro ⟨hl, -⟩
        cases hl
      · intro hw
        exact absurd hw (walkSpec_leaf img p0 _ mr (fun _ => rfl)
          (fun i2 => by cases i2 <;> rfl))
    · simp only [findAux, List.not_mem_nil, false_iff]
      exact entsSpec_no_lookup img p0 _ mr (fun _ => rfl)
    · simp only [findAux, List.not_mem_nil, false_iff]
      exact elemsSpec_no_seq img p0 i _ mr (fun i2 => by cases i2 <;> rfl)
  | mcons k v r ihv ihr =>
    have hEnts : ∀ p0 mr, wfN (.mcons k v r) = true →
        (mr ∈ findAux img .ents p0 (.mcons k v r) ↔ EntsSpec img p0 (.mcons k v r) mr) := by
      intro p0 mr hwf
      obtain ⟨hshape, hkey, hwv, hwr⟩ := wf_mcons hwf
      rw [entsSpec_mcons_iff img p0 k v r mr hkey]
      simp only [findAux, List.mem_append]
      rw [ihr.2.1 p0 mr hwr, entryPart_mem_iff img p0 k v mr hwv ihv.1]
    refine ⟨?_, hEnts, ?_⟩
    · intro p0 mr hwf
      rw [walkSpec_mcons_iff]
      have hshow : findAux img .walk p0 (.mcons k v r) =
          structCheck img p0 (.mcons k v r) ++ findAux img .ents p0 (.mcons k v r) := by
        simp [findAux]
      rw [hshow, List.mem_append, structCheck_mem, hEnts p0 mr hwf]
    · intro p0 mr i _
      simp only [findAux, List.not_mem_nil, false_iff]
      exact elemsSpec_no_seq img p0 i _ mr
        (fun i2 => seqGet_nonseq i2 (.mcons k v r) rfl)
  | scons hd tl ihh ihtl =>
    have hElems : ∀ p0 mr i, wfN (.scons hd tl) = true →
        (mr ∈ findAux img (.elems i) p0 (.scons hd tl) ↔
          ElemsSpec img p0 i (.scons hd tl) mr) := by
      intro p0 mr i hwf
      obtain ⟨hshape, hwh, hwt⟩ := wf_scons hwf
      rw [elemsSpec_scons_iff]
      simp only [findAux, List.mem_append]
      rw [ihh.1 (p0 ++ [PStep.idx i]) mr hwh, ihtl.2.2 p0 mr (i+1) hwt]
    refine ⟨?_, ?_, hElems⟩
    · intro p0 mr hwf
      rw [walkSpec_scons_iff]
      have hshow : findAux img .walk p0 (.scons hd tl) =
          findAux img (.elems 0) p0 (.scons hd tl) := by
        simp [findAux]
      rw [hshow]
      exact hElems p0 mr 0 hwf
    · intro p0 mr _
      simp only [findAux, List.not_mem_nil, false_iff]
      exact entsSpec_no_lookup img p0 _ mr
        (fun j => lookupE_nonmap j (.scons hd tl) rfl)

theorem mem_findUniversal_struct (t : VNode) (img : String) (p : KPath)
    (hwf : wfN t = true) :
    MatchRec.structured p ∈ findImageBlocksUniversal t img ↔
      ∃ x, getN p t = some x ∧ lookupE x "repository" = some (.str img) := by
  unfold findImageBlocksUniversal
  rw [(findAux_char img t).1 [] _ hwf]
  constructor
  · rintro (⟨q, heq, hit⟩ | ⟨q, j, s, heq, -⟩)
    · rw [List.nil_append] at heq
      cases heq
      exact hit
    · cases heq
  · intro hit
    exact Or.inl ⟨p, by simp, hit⟩

theorem mem_findUniversal_inline (t : VNode) (img : String) (p : KPath) (k s : String)
    (hwf : wfN t = true) :
    MatchRec.inl p k s ∈ findImageBlocksUniversal t img ↔
      ∃ x, getN p t = some x ∧ lookupE x k = some (.str s) ∧
        strHasPref (img ++ ":") s = true := by
  unfold findImageBlocksUniversal
  rw [(findAux_char img t).1 [] _ hwf]
  constructor
  · rintro (⟨q, heq, -⟩ | ⟨q, j, s2, heq, hit⟩)
    · cases heq
    · rw [List.nil_append] at heq
      cases heq
      exact hit
  · intro hit
    exact Or.inr ⟨p, k, s, by simp, hit⟩

/-- C5: findImageBlocksUniversal emits a structured match exactly for
the mappings whose "repository" key holds the image name (whether or
not a "tag" key exists), and an inline match exactly for each mapping
key whose string value starts with image_name ++ ":"; the concrete
conjunct shows a single mapping contributing both kinds of match in
one traversal. -/
theorem findUniversal_matches_characterized (t : VNode) (img : String)
    (hwf : wfN t = true) :
    (∀ p : KPath, MatchRec.structured p ∈ findImageBlocksUniversal t img ↔
      ∃ x, getN p t = some x ∧ lookupE x "repository" = some (.str img)) ∧
    (∀ (p : KPath) (k s : String),
      MatchRec.inl p k s ∈ findImageBlocksUniversal t img ↔
        ∃ x, getN p t = some x ∧ lookupE x k = some (.str s) ∧
          strHasPref (img ++ ":") s = true) ∧
    (MatchRec.structured [] ∈ findImageBlocksUniversal
        (.mcons "repository" (.str "img") (.mcons "svc" (.str "img:1.0.0") .mnil)) "img" ∧
      MatchRec.inl [] "svc" "img:1.0.0" ∈ findImageBlocksUniversal
        (.mcons "repository" (.str "img") (.mcons "svc" (.str "img:1.0.0") .mnil)) "img") :=
  ⟨fun p => mem_findUniversal_struct t img p hwf,
   fun p k s => mem_findUniversal_inline t img p k s hwf,
   by decide, by decide⟩

/-- C5 witness at a concrete well-formed tree. -/
theorem findUniversal_matches_characterized_witness :
    (∀ p : KPath, MatchRec.structured p ∈ findImageBlocksUniversal
        (.mcons "repository" (.str "img") (.mcons "svc" (.str "img:1.0.0") .mnil)) "img" ↔
      ∃ x, getN p (.mcons "repository" (.str "img") (.mcons "svc" (.str "img:1.0.0") .mnil)) =
          some x ∧ lookupE x "repository" = some (.str "img")) ∧
    (∀ (p : KPath) (k s : String),
      MatchRec.inl p k s ∈ findImageBlocksUniversal
          (.mcons "repository" (.str "img") (.mcons "svc" (.str "img:1.0.0") .mnil)) "img" ↔
        ∃ x, getN p (.mcons "repository" (.str "img") (.mcons "svc" (.str "img:1.0.0") .mnil)) =
            some x ∧ lookupE x k = some (.str s) ∧
          strHasPref ("img" ++ ":") s = true) ∧
    (MatchRec.structured [] ∈ findImageBlocksUniversal
        (.mcons "repository" (.str "img") (.mcons "svc" (.str "img:1.0.0") .mnil)) "img" ∧
      MatchRec.inl [] "svc" "img:1.0.0" ∈ findImageBlocksUniversal
        (.mcons "repository" (.str "img") (.mcons "svc" (.str "img:1.0.0") .mnil)) "img") :=
  findUniversal_matches_characterized
    (.mcons "repository" (.str "img") (.mcons "svc" (.str "img:1.0.0") .mnil)) "img"
    (by decide)

/-- C10: every inline match produced by findImageBlocksUniversal
points at a mapping (the parent) and one of its keys; a string of the
form image ++ ":" ++ version sitting directly inside a sequence is
never emitted as a match and hence never rewritten, as the concrete
conjunct shows. -/
theorem inline_only_from_mapping_values (t : VNode) (img : String) (hwf : wfN t = true) :
    (∀ (p : KPath) (k s : String),
      MatchRec.inl p k s ∈ findImageBlocksUniversal t img →
        ∃ x, getN p t = some x ∧ isMapShape x = true ∧ lookupE x k = some (.str s)) ∧
    findImageBlocksUniversal
      (.mcons "xs" (.scons (.str "img:1.0.0") .snil) .mnil) "img" = [] := by
  refine ⟨?_, by decide⟩
  intro p k s hmem
  obtain ⟨x, hx, hl, -⟩ := (mem_findUniversal_inline t img p k s hwf).mp hmem
  exact ⟨x, hx, lookupE_some_mapShape hl, hl⟩

/-- C10 witness: a tree whose only image-formed string sits in a
sequence. -/
theorem inline_only_from_mapping_values_witness :
    (∀ (p : KPath) (k s : String),
      MatchRec.inl p k s ∈ findImageBlocksUniversal
          (.mcons "xs" (.scons (.str "img:1.0.0") .snil) .mnil) "img" →
        ∃ x, getN p (.mcons "xs" (.scons (.str "img:1.0.0") .snil) .mnil) = some x ∧
          isMapShape x = true ∧ lookupE x k = some (.str s)) ∧
    findImageBlocksUniversal
      (.mcons "xs" (.scons (.str "img:1.0.0") .snil) .mnil) "img" = [] :=
  inline_only_from_mapping_values
    (.mcons "xs" (.scons (.str "img:1.0.0") .snil) .mnil) "img" (by decide)

-- ### String facts for the idempotence analysis

theorem hasPrefL_refl_append (p rest : List Char) : hasPrefL p (p ++ rest) = true := by
  induction p with
  | nil => rfl
  | cons c cs ih => simp [hasPrefL, ih]

theorem hasPrefL_mem_sub {p s : List Char} (h : hasPrefL p s = true) {c : Char}
    (hc : c ∈ p) : c ∈ s := by
  induction p generalizing s with
  | nil => cases hc
  | cons a as ih =>
    cases s with
    | nil => cases h
    | cons b bs =>
      simp only [hasPrefL, Bool.and_eq_true, decide_eq_true_eq] at h
      rcases List.mem_cons.mp hc with rfl | hc2
      · rw [h.1]
        exact List.mem_cons_self b bs
      · exact List.mem_cons_of_mem b (ih h.2 hc2)

theorem data_img_colon (img v : String) :
    (img ++ ":" ++ v).data = img.data ++ ':' :: v.data := by
  rw [String.data_append (img ++ ":") v, String.data_append img ":"]
  simp

theorem strHasPref_img_colon (img v : String) :
    strHasPref (img ++ ":") (img ++ ":" ++ v) = true := by
  unfold strHasPref
  rw [data_img_colon img v, String.data_append img ":"]
  show hasPrefL ((img.data ++ [':'])) (img.data ++ ':' :: v.data) = true
  have : img.data ++ ':' :: v.data = (img.data ++ [':']) ++ v.data := by simp
  rw [this]
  exact hasPrefL_refl_append _ _

theorem colon_mem_of_pref {img s : String} (h : strHasPref (img ++ ":") s = true) :
    ':' ∈ s.data := by
  unfold strHasPref at h
  apply hasPrefL_mem_sub h
  rw [String.data_append img ":"]
  simp

theorem img_colon_v_ne_img (img v : String) : img ++ ":" ++ v ≠ img := by
  intro h
  have hd := congrArg String.data h
  rw [data_img_colon img v] at hd
  have hl := congrArg List.length hd
  simp at hl

theorem pref_colon_free_false {img v : String} (h : ∀ c ∈ v.data, c ≠ ':') :
    strHasPref (img ++ ":") v = false := by
  cases hp : strHasPref (img ++ ":") v
  · rfl
  · exact absurd rfl (h ':' (colon_mem_of_pref hp))

theorem splitChar_ne_nil (sep : Char) (cs : List Char) : splitChar sep cs ≠ [] := by
  cases cs with
  | nil => simp [splitChar]
  | cons c cs2 =>
    simp only [splitChar]
    split
    · simp
    · split <;> simp

theorem splitChar_no_sep (sep : Char) (cs : List Char) (h : ∀ c ∈ cs, c ≠ sep) :
    splitChar sep cs = [cs] := by
  induction cs with
  | nil => rfl
  | cons c cs2 ih =>
    have hc : ¬ c = sep := h c (List.mem_cons_self c cs2)
    simp only [splitChar, if_neg hc]
    rw [ih (fun c2 hc2 => h c2 (List.mem_cons_of_mem c hc2))]

theorem getLastD_cons_head (g : List Char) (gs : List (List Char)) (c : Char)
    (hne : gs ≠ []) : ((c :: g) :: gs).getLastD [] = (g :: gs).getLastD [] := by
  cases gs with
  | nil => exact absurd rfl hne
  | cons g2 gs2 => simp [List.getLastD_cons]

theorem getLastD_default_irrel {a : Type} (l : List a) (d1 d2 : a) (h : l ≠ []) :
    l.getLastD d1 = l.getLastD d2 := by
  cases l with
  | nil => exact absurd rfl h
  | cons b l2 => rw [List.getLastD_cons, List.getLastD_cons]

theorem getLastD_cons_of_ne_nil {a : Type} (x : a) (l : List a) (d : a) (h : l ≠ []) :
    (x :: l).getLastD d = l.getLastD d := by
  rw [List.getLastD_cons]
  exact getLastD_default_irrel l x d h

theorem splitChar_two_groups (sep : Char) (cs : List Char) (h : sep ∈ cs) :
    ∃ g g2 gs, splitChar sep cs = g :: g2 :: gs := by
  induction cs with
  | nil => cases h
  | cons c cs2 ih =>
    by_cases hc : c = sep
    · rcases hg : splitChar sep cs2 with _ | ⟨g, gs⟩
      · exact absurd hg (splitChar_ne_nil sep cs2)
      · exact ⟨[], g, gs, by simp [splitChar, hc, hg]⟩
    · have h2 : sep ∈ cs2 := by
        rcases List.mem_cons.mp h with rfl | h2
        · exact absurd rfl hc
        · exact h2
      obtain ⟨g, g2, gs, hg⟩ := ih h2
      exact ⟨c :: g, g2, gs, by simp [splitChar, hc, hg]⟩

theorem splitChar_append_sep (sep : Char) (xs ys : List Char) :
    (splitChar sep (xs ++ sep :: ys)).getLastD [] = (splitChar sep ys).getLastD [] := by
  induction xs with
  | nil =>
    simp only [List.nil_append, splitChar, if_pos rfl]
    exact getLastD_cons_of_ne_nil [] _ [] (splitChar_ne_nil sep ys)
  | cons x xs2 ih =>
    by_cases hx : x = sep
    · rw [List.cons_append]
      have hstep : splitChar sep (x :: (xs2 ++ sep :: ys)) =
          [] :: splitChar sep (xs2 ++ sep :: ys) := by
        simp [splitChar, hx]
      rw [hstep, getLastD_cons_of_ne_nil [] _ [] (splitChar_ne_nil sep _)]
      exact ih
    · obtain ⟨g, g2, gs, hg⟩ := splitChar_two_groups sep (xs2 ++ sep :: ys) (by simp)
      rw [List.cons_append]
      have hstep : splitChar sep (x :: (xs2 ++ sep :: ys)) = (x :: g) :: g2 :: gs := by
        simp [splitChar, hx, hg]
      rw [hstep, ← ih, hg]
      rw [getLastD_cons_of_ne_nil (x :: g) (g2 :: gs) [] (by simp)]
      rw [getLastD_cons_of_ne_nil g (g2 :: gs) [] (by simp)]

theorem lastColonSegment_img (img v : String) (h : ∀ c ∈ v.data, c ≠ ':') :
    lastColonSegment (img ++ ":" ++ v) = v := by
  unfold lastColonSegment
  rw [data_img_colon img v, splitChar_append_sep ':' img.data v.data,
    splitChar_no_sep ':' v.data h]
  simp only [List.getLastD_cons]
  cases v
  rfl

theorem strmk_data (v : String) : String.mk v.data = v := by
  cases v
  rfl

theorem all_digits_no_colon {ds : List Char} (h : ds.all isDigitC = true) :
    ∀ c ∈ ds, c ≠ ':' := by
  intro c hc heq
  subst heq
  rw [List.all_eq_true] at h
  exact absurd (h ':' hc) (by decide)

theorem all_ident_no_colon {ds : List Char} (h : ds.all isIdentC = true) :
    ∀ c ∈ ds, c ≠ ':' := by
  intro c hc heq
  subst heq
  rw [List.all_eq_true] at h
  exact absurd (h ':' hc) (by decide)

theorem coreShape_no_colon {cs : List Char} (h : SemverCoreShape cs) :
    ∀ c ∈ cs, c ≠ ':' := by
  obtain ⟨d1, d2, d3, rest, rfl, -, -, -, hd1, hd2, hd3, pre, bld, rfl, hpre, hbld⟩ := h
  intro c hc
  simp only [List.mem_append, List.mem_cons] at hc
  have hpreM : ∀ c2 ∈ pre, c2 ≠ ':' := by
    rcases hpre with rfl | ⟨ps, rfl, -, hps⟩
    · intro c2 hc2; cases hc2
    · intro c2 hc2
      rcases List.mem_cons.mp hc2 with rfl | hc3
      · decide
      · exact all_ident_no_colon hps c2 hc3
  have hbldM : ∀ c2 ∈ bld, c2 ≠ ':' := by
    rcases hbld with rfl | ⟨bs, rfl, -, hbs⟩
    · intro c2 hc2; cases hc2
    · intro c2 hc2
      rcases List.mem_cons.mp hc2 with rfl | hc3
      · decide
      · exact all_ident_no_colon hbs c2 hc3
  rcases hc with h1 | rfl | h1
  · exact all_digits_no_colon hd1 c h1
  · decide
  · rcases h1 with h1 | rfl | h1
    · exact all_digits_no_colon hd2 c h1
    · decide
    · rcases h1 with h1 | h1
      · exact all_digits_no_colon hd3 c h1
      · rcases h1 with h1 | h1
        · exact hpreM c h1
        · exact hbldM c h1

theorem coreShape_ne_nil {cs : List Char} (h : SemverCoreShape cs) : cs ≠ [] := by
  obtain ⟨d1, d2, d3, rest, rfl, h1, -, -, -⟩ := h
  cases d1 with
  | nil => exact absurd rfl h1
  | cons a as => simp

theorem semver_char_facts (v : String) (hv : isValidSemver v = true) :
    v ≠ "" ∧ ∀ c ∈ v.data, c ≠ ':' := by
  have hs := (isValidSemverL_iff v.data).mp hv
  have hne : v.data ≠ [] := by
    rcases hs with h | ⟨body, heq, -⟩
    · exact coreShape_ne_nil h
    · rw [heq]; simp
  constructor
  · intro h2
    subst h2
    exact hne rfl
  · rcases hs with h | ⟨body, heq, hb⟩
    · exact coreShape_no_colon h
    · rw [heq]
      intro c hc
      rcases List.mem_cons.mp hc with rfl | hc2
      · decide
      · exact coreShape_no_colon hb c hc2

-- ### Well-formedness preservation under updAt

theorem wf_lookup {t : VNode} {j : String} {v : VNode} (hwf : wfN t = true)
    (hl : lookupE t j = some v) : wfN v = true := by
  induction t with
  | mcons k v2 r ihv ihr =>
    obtain ⟨-, -, hv2, hr⟩ := wf_mcons hwf
    simp only [lookupE] at hl
    by_cases hk : k = j
    · rw [if_pos hk] at hl
      cases hl
      exact hv2
    · rw [if_neg hk] at hl
      exact ihr hr hl
  | _ => cases hl

theorem wf_seqGet {t : VNode} {i : Nat} {v : VNode} (hwf : wfN t = true)
    (hl : seqGet i t = some v) : wfN v = true := by
  induction t generalizing i with
  | scons h tl ihh ihtl =>
    obtain ⟨-, hh, htl⟩ := wf_scons hwf
    cases i with
    | zero => cases hl; exact hh
    | succ i2 => exact ihtl htl hl
  | _ => cases i <;> cases hl

theorem wf_getN_sub {t m : VNode} {q : KPath} (hwf : wfN t = true)
    (hm : getN q t = some m) : wfN m = true := by
  induction q generalizing t with
  | nil => cases hm; exact hwf
  | cons st q2 ih =>
    cases st with
    | key j =>
      simp only [getN] at hm
      rcases hl : lookupE t j with _ | v
      · rw [hl] at hm; cases hm
      · rw [hl] at hm
        exact ih (wf_lookup hwf hl) hm
    | idx i =>
      simp only [getN] at hm
      rcases hl : seqGet i t with _ | v
      · rw [hl] at hm; cases hm
      · rw [hl] at hm
        exact ih (wf_seqGet hwf hl) hm

theorem mapShape_chain {m : VNode} (hwf : wfN m = true) (hs : isMapShape m = true) :
    isMapChain m = true := by
  induction m with
  | mnil => rfl
  | mcons k v r ihv ihr =>
    obtain ⟨hshape, -, -, hr⟩ := wf_mcons hwf
    simp only [isMapChain]
    exact ihr hr hshape
  | _ => cases hs

theorem setE_mapShape (m : VNode) (k : String) (w : VNode) (h : isMapShape m = true) :
    isMapShape (setE m k w) = true := by
  cases m with
  | mcons k2 v r =>
    simp only [setE]
    split <;> rfl
  | mnil => rfl
  | _ => cases h

theorem mapFirst_mapShape (k0 : String) (f : VNode → VNode) (m : VNode)
    (h : isMapShape m = true) : isMapShape (mapFirst k0 f m) = true := by
  cases m with
  | mcons k2 v r =>
    simp only [mapFirst]
    split <;> rfl
  | mnil => rfl
  | _ => cases h

theorem seqMap_seqShape (i : Nat) (f : VNode → VNode) (m : VNode)
    (h : isSeqShape m = true) : isSeqShape (seqMap i f m) = true := by
  cases m with
  | scons h2 t2 => cases i <;> rfl
  | snil => cases i <;> rfl
  | _ => cases h

theorem setE_wf {m w : VNode} (k : String) (hwf : wfN m = true) (hw : wfN w = true) :
    wfN (setE m k w) = true := by
  induction m with
  | mcons k2 v r ihv ihr =>
    obtain ⟨hshape, hkey, hv, hr⟩ := wf_mcons hwf
    simp only [setE]
    by_cases hk : k2 = k
    · rw [if_pos hk]
      simp only [wfN, Bool.and_eq_true, Bool.not_eq_true']
      exact ⟨⟨⟨hshape, hkey⟩, hw⟩, hr⟩
    · rw [if_neg hk]
      simp only [wfN, Bool.and_eq_true, Bool.not_eq_true']
      refine ⟨⟨⟨setE_mapShape r k w hshape, ?_⟩, hv⟩, ihr hr⟩
      unfold hasKeyE
      rw [lookupE_setE r k k2 w (mapShape_chain hr hshape), if_neg hk]
      unfold hasKeyE at hkey
      exact hkey
  | mnil => simp [setE, wfN, hasKeyE, lookupE, hw, isMapShape]
  | _ => exact hwf

theorem mapFirst_wf {t : VNode} (k0 : String) (f : VNode → VNode) (hwf : wfN t = true)
    (hf : ∀ v, lookupE t k0 = some v → wfN (f v) = true) :
    wfN (mapFirst k0 f t) = true := by
  induction t with
  | mcons k v r ihv ihr =>
    obtain ⟨hshape, hkey, hv, hr⟩ := wf_mcons hwf
    simp only [mapFirst]
    by_cases hk : k = k0
    · rw [if_pos hk]
      simp only [wfN, Bool.and_eq_true, Bool.not_eq_true']
      refine ⟨⟨⟨hshape, hkey⟩, hf v ?_⟩, hr⟩
      simp [lookupE, hk]
    · rw [if_neg hk]
      simp only [wfN, Bool.and_eq_true, Bool.not_eq_true']
      refine ⟨⟨⟨mapFirst_mapShape k0 f r hshape, ?_⟩, hv⟩, ?_⟩
      · unfold hasKeyE
        rw [lookupE_mapFirst k0 k f r]
        rw [if_neg (fun h => hk (h : k = k0))]
        unfold hasKeyE at hkey
        exact hkey
      · refine ihr hr ?_
        intro v2 hv2
        refine hf v2 ?_
        simp [lookupE, if_neg hk, hv2]
  | _ => exact hwf

theorem seqMap_wf (f : VNode → VNode) :
    ∀ (t : VNode) (i : Nat), wfN t = true →
      (∀ v, seqGet i t = some v → wfN (f v) = true) →
      wfN (seqMap i f t) = true := by
  intro t
  induction t with
  | scons h tl ihh ihtl =>
    intro i hwf hf
    obtain ⟨hshape, hh, htl⟩ := wf_scons hwf
    cases i with
    | zero =>
      simp only [seqMap, wfN, Bool.and_eq_true]
      exact ⟨⟨hshape, hf h rfl⟩, htl⟩
    | succ i2 =>
      simp only [seqMap, wfN, Bool.and_eq_true]
      exact ⟨⟨seqMap_seqShape i2 f tl hshape, hh⟩,
        ihtl i2 htl (fun v hv => hf v hv)⟩
  | _ =>
    intro i hwf hf
    simpa [seqMap] using hwf

theorem updAt_wf {t w : VNode} (p : KPath) (k : String) (hwf : wfN t = true)
    (hw : wfN w = true) : wfN (updAt p k w t) = true := by
  induction p generalizing t with
  | nil => exact setE_wf k hwf hw
  | cons st q ih =>
    cases st with
    | key k0 =>
      exact mapFirst_wf k0 (updAt q k w) hwf
        (fun v hv => ih (wf_lookup hwf hv))
    | idx i =>
      exact seqMap_wf (updAt q k w) t i hwf
        (fun v hv => ih (wf_seqGet hwf hv))

-- ### No-op updates through dead paths

theorem mapFirst_absent (k0 : String) (f : VNode → VNode) (t : VNode)
    (h : lookupE t k0 = none) : mapFirst k0 f t = t := by
  induction t with
  | mcons k v r ihv ihr =>
    simp only [lookupE] at h
    by_cases hk : k = k0
    · rw [if_pos hk] at h
      cases h
    · rw [if_neg hk] at h
      simp only [mapFirst, if_neg hk]
      rw [ihr h]
  | _ => rfl

theorem mapFirst_congr_id (k0 : String) (f : VNode → VNode) (t v : VNode)
    (hl : lookupE t k0 = some v) (hf : f v = v) : mapFirst k0 f t = t := by
  induction t with
  | mcons k v2 r ihv ihr =>
    simp only [lookupE] at hl
    by_cases hk : k = k0
    · rw [if_pos hk] at hl
      cases hl
      simp only [mapFirst, if_pos hk, hf]
    · rw [if_neg hk] at hl
      simp only [mapFirst, if_neg hk]
      rw [ihr hl]
  | _ => rfl

theorem seqMap_absent (i : Nat) (f : VNode → VNode) (t : VNode)
    (h : seqGet i t = none) : seqMap i f t = t := by
  induction t generalizing i with
  | scons hd tl ihh ihtl =>
    cases i with
    | zero => cases h
    | succ i2 =>
      simp only [seqMap]
      rw [ihtl i2 h]
  | _ => cases i <;> rfl

theorem seqMap_congr_id (i : Nat) (f : VNode → VNode) (t v : VNode)
    (hl : seqGet i t = some v) (hf : f v = v) : seqMap i f t = t := by
  induction t generalizing i with
  | scons hd tl ihh ihtl =>
    cases i with
    | zero =>
      cases hl
      simp only [seqMap, hf]
    | succ i2 =>
      simp only [seqMap]
      rw [ihtl i2 hl]
  | _ => cases i <;> cases hl

theorem updAt_dead (p : KPath) (k : String) (w : VNode) (t : VNode)
    (h : getN p t = none) : updAt p k w t = t := by
  induction p generalizing t with
  | nil => cases h
  | cons st q ih =>
    cases st with
    | key k0 =>
      simp only [getN] at h
      rcases hl : lookupE t k0 with _ | v
      · exact mapFirst_absent k0 (updAt q k w) t hl
      · rw [hl] at h
        dsimp only [] at h
        exact mapFirst_congr_id k0 (updAt q k w) t v hl (ih v h)
    | idx i =>
      simp only [getN] at h
      rcases hl : seqGet i t with _ | v
      · exact seqMap_absent i (updAt q k w) t hl
      · rw [hl] at h
        dsimp only [] at h
        exact seqMap_congr_id i (updAt q k w) t v hl (ih v h)

-- ### Tracing values across a string write

theorem posVal_nil (j : String) (t : VNode) : posVal [] j t = lookupE t j := rfl

theorem posVal_cons_key (k2 : String) (q2 : KPath) (j : String) (t : VNode) :
    posVal (PStep.key k2 :: q2) j t =
      (match lookupE t k2 with
       | some v => posVal q2 j v
       | none => none) := by
  rcases hl : lookupE t k2 with _ | v <;> simp [posVal, getN, hl]

theorem posVal_cons_idx (i : Nat) (q2 : KPath) (j : String) (t : VNode) :
    posVal (PStep.idx i :: q2) j t =
      (match seqGet i t with
       | some v => posVal q2 j v
       | none => none) := by
  rcases hl : seqGet i t with _ | v <;> simp [posVal, getN, hl]

theorem posVal_scalar_none (q : KPath) (j : String) (n : VNode)
    (h1 : isMapShape n = false) (h2 : isSeqShape n = false) : posVal q j n = none := by
  unfold posVal
  rcases hx : getN q n with _ | x
  · rfl
  · rw [getN_scalar n h1 h2 q x hx]
    exact lookupE_nonmap j n h1

theorem updAt_str_inv (r : KPath) (k : String) (w x : VNode) (s : String)
    (h : updAt r k w x = .str s) : x = .str s := by
  cases r with
  | nil =>
    cases x with
    | mcons k2 v rr =>
      simp only [updAt, setE] at h
      split at h <;> cases h
    | mnil => cases h
    | _ => exact h
  | cons st r2 =>
    cases st with
    | key k0 =>
      cases x with
      | mcons k2 v rr =>
        simp only [updAt, mapFirst] at h
        split at h <;> cases h
      | _ => exact h
    | idx i =>
      cases x with
      | scons hd tl =>
        simp only [updAt, seqMap] at h
        cases i <;> cases h
      | _ => simpa only [updAt, seqMap] using h

theorem posVal_updAt_str_trace (p : KPath) (k c : String) :
    ∀ (t m : VNode), wfN t = true → getN p t = some m →
    ∀ (q : KPath) (j s : String),
      posVal q j (updAt p k (.str c) t) = some (.str s) →
      (q = p ∧ j = k ∧ s = c) ∨ posVal q j t = some (.str s) := by
  induction p with
  | nil =>
    intro t m hwf hm q j s hpv
    rcases hshape : isMapShape t with _ | _
    · right
      rw [show updAt [] k (.str c) t = t from ?_] at hpv
      · exact hpv
      · show setE t k (.str c) = t
        cases t <;> first | rfl | cases hshape
    · have hchain : isMapChain t = true := mapShape_chain hwf hshape
      cases q with
      | nil =>
        rw [posVal_nil] at hpv
        rw [show updAt [] k (.str c) t = setE t k (.str c) from rfl,
          lookupE_setE t k j (.str c) hchain] at hpv
        by_cases hj : j = k
        · rw [if_pos hj] at hpv
          cases hpv
          exact Or.inl ⟨rfl, hj, rfl⟩
        · rw [if_neg hj] at hpv
          right
          rw [posVal_nil]
          exact hpv
      | cons st q2 =>
        cases st with
        | key k2 =>
          rw [posVal_cons_key] at hpv
          rw [show updAt [] k (.str c) t = setE t k (.str c) from rfl,
            lookupE_setE t k k2 (.str c) hchain] at hpv
          by_cases hk2 : k2 = k
          · rw [if_pos hk2] at hpv
            dsimp only [] at hpv
            rw [posVal_scalar_none q2 j (.str c) rfl rfl] at hpv
            cases hpv
          · rw [if_neg hk2] at hpv
            right
            rw [posVal_cons_key]
            exact hpv
        | idx i =>
          rw [posVal_cons_idx] at hpv
          rw [show updAt [] k (.str c) t = setE t k (.str c) from rfl] at hpv
          rw [seqGet_nonseq i (setE t k (.str c)) ?_] at hpv
          · cases hpv
          · have := setE_mapShape t k (.str c) hshape
            cases hmm : setE t k (.str c) <;> first | rfl | (rw [hmm] at this; cases this)
  | cons st p2 ih =>
    intro t m hwf hm q j s hpv
    cases st with
    | key k0 =>
      simp only [getN] at hm
      rcases hl : lookupE t k0 with _ | v0
      · rw [hl] at hm; cases hm
      · rw [hl] at hm
        dsimp only [] at hm
        have hwv0 : wfN v0 = true := wf_lookup hwf hl
        rw [show updAt (PStep.key k0 :: p2) k (.str c) t =
          mapFirst k0 (updAt p2 k (.str c)) t from rfl] at hpv
        cases q with
        | nil =>
          rw [posVal_nil, lookupE_mapFirst k0 j (updAt p2 k (.str c)) t] at hpv
          by_cases hj : j = k0
          · rw [if_pos hj, hl, Option.map_some'] at hpv
            have heq := Option.some.inj hpv
            have hv0 : v0 = .str s := updAt_str_inv p2 k (.str c) v0 s heq
            right
            rw [posVal_nil, hj, hl, hv0]
          · rw [if_neg hj] at hpv
            right
            rw [posVal_nil]
            exact hpv
        | cons st2 q2 =>
          cases st2 with
          | key k2 =>
            rw [posVal_cons_key, lookupE_mapFirst k0 k2 (updAt p2 k (.str c)) t] at hpv
            by_cases hk2 : k2 = k0
            · rw [if_pos hk2, hl, Option.map_some'] at hpv
              dsimp only [] at hpv
              rcases ih v0 m hwv0 hm q2 j s hpv with ⟨rfl, rfl, rfl⟩ | hold
              · exact Or.inl ⟨by rw [hk2], rfl, rfl⟩
              · right
                rw [posVal_cons_key, hk2, hl]
                exact hold
            · rw [if_neg hk2] at hpv
              right
              rw [posVal_cons_key]
              exact hpv
          | idx i =>
            rw [posVal_cons_idx] at hpv
            have ht : isMapShape t = true := lookupE_some_mapShape hl
            rw [seqGet_nonseq i (mapFirst k0 (updAt p2 k (.str c)) t) ?_] at hpv
            · cases hpv
            · have := mapFirst_mapShape k0 (updAt p2 k (.str c)) t ht
              cases hmm : mapFirst k0 (updAt p2 k (.str c)) t <;>
                first | rfl | (rw [hmm] at this; cases this)
    | idx i0 =>
      simp only [getN] at hm
      rcases hl : seqGet i0 t with _ | v0
      · rw [hl] at hm; cases hm
      · rw [hl] at hm
        dsimp only [] at hm
        have hwv0 : wfN v0 = true := wf_seqGet hwf hl
        rw [show updAt (PStep.idx i0 :: p2) k (.str c) t =
          seqMap i0 (updAt p2 k (.str c)) t from rfl] at hpv
        have hts : isSeqShape t = true := by
          cases t <;> first | rfl | (cases i0 <;> cases hl)
        cases q with
        | nil =>
          rw [posVal_nil] at hpv
          rw [lookupE_nonmap j (seqMap i0 (updAt p2 k (.str c)) t) ?_] at hpv
          · cases hpv
          · have := seqMap_seqShape i0 (updAt p2 k (.str c)) t hts
            cases hmm : seqMap i0 (updAt p2 k (.str c)) t <;>
              first | rfl | (rw [hmm] at this; cases this)
        | cons st2 q2 =>
          cases st2 with
          | key k2 =>
            rw [posVal_cons_key] at hpv
            rw [lookupE_nonmap k2 (seqMap i0 (updAt p2 k (.str c)) t) ?_] at hpv
            · cases hpv
            · have := seqMap_seqShape i0 (updAt p2 k (.str c)) t hts
              cases hmm : seqMap i0 (updAt p2 k (.str c)) t <;>
                first | rfl | (rw [hmm] at this; cases this)
          | idx i2 =>
            rw [posVal_cons_idx, seqGet_seqMap i0 i2 (updAt p2 k (.str c)) t] at hpv
            by_cases hi2 : i2 = i0
            · rw [if_pos hi2, hl, Option.map_some'] at hpv
              dsimp only [] at hpv
              rcases ih v0 m hwv0 hm q2 j s hpv with ⟨rfl, rfl, rfl⟩ | hold
              · exact Or.inl ⟨by rw [hi2], rfl, rfl⟩
              · right
                rw [posVal_cons_idx, hi2, hl]
                exact hold
            · rw [if_neg hi2] at hpv
              right
              rw [posVal_cons_idx]
              exact hpv

theorem updAt_str (r : KPath) (k : String) (w : VNode) (s : String) :
    updAt r k w (.str s) = .str s := by
  cases r with
  | nil => rfl
  | cons st r2 => cases st <;> simp [updAt, seqMap, mapFirst]

theorem updAt_nonmap (p : KPath) (k : String) (w : VNode) :
    ∀ (t m : VNode), getN p t = some m → isMapShape m = false →
      updAt p k w t = t := by
  induction p with
  | nil =>
    intro t m hm hs
    cases hm
    show setE t k w = t
    cases t <;> first | rfl | cases hs
  | cons st q ih =>
    intro t m hm hs
    cases st with
    | key k0 =>
      simp only [getN] at hm
      rcases hl : lookupE t k0 with _ | v0
      · rw [hl] at hm; cases hm
      · rw [hl] at hm
        dsimp only [] at hm
        exact mapFirst_congr_id k0 (updAt q k w) t v0 hl (ih v0 m hm hs)
    | idx i =>
      simp only [getN] at hm
      rcases hl : seqGet i t with _ | v0
      · rw [hl] at hm; cases hm
      · rw [hl] at hm
        dsimp only [] at hm
        exact seqMap_congr_id i (updAt q k w) t v0 hl (ih v0 m hm hs)

theorem posVal_some_iff (p : KPath) (j : String) (t y : VNode) :
    posVal p j t = some y ↔ ∃ x, getN p t = some x ∧ lookupE x j = some y := by
  unfold posVal
  rcases hx : getN p t with _ | x
  · simp
  · simp

theorem hasPrefL_length {p s : List Char} (h : hasPrefL p s = true) :
    p.length ≤ s.length := by
  induction p generalizing s with
  | nil => simp
  | cons a as ih =>
    cases s with
    | nil => cases h
    | cons b bs =>
      simp only [hasPrefL, Bool.and_eq_true] at h
      simpa [List.length_cons] using ih h.2

theorem strHasPref_colon_self (img : String) :
    strHasPref (img ++ ":") img = false := by
  cases hp : strHasPref (img ++ ":") img
  · rfl
  · exfalso
    have hl := hasPrefL_length hp
    rw [String.data_append img ":"] at hl
    simp [List.length_append] at hl

theorem oldTagOf_eq_some {m : VNode} {v : String} (h : oldTagOf m = v) (hne : v ≠ "") :
    lookupE m "tag" = some (.str v) := by
  unfold oldTagOf at h
  rcases hl : lookupE m "tag" with _ | n
  · rw [hl] at h; exact absurd h.symm hne
  · rw [hl] at h
    cases n with
    | str s => cases h; rfl
    | _ => exact absurd h.symm hne

theorem updAt_str_keys (p : KPath) (k c : String) :
    ∀ (t : VNode), wfN t = true →
    ∀ (q : KPath) (m2 : VNode),
      getN q (updAt p k (.str c) t) = some m2 → isMapShape m2 = true →
      ∃ m1, getN q t = some m1 ∧ isMapShape m1 = true ∧
        ∀ (j : String) (y : VNode), lookupE m1 j = some y →
          ∃ y2, lookupE m2 j = some y2 := by
  induction p with
  | nil =>
    intro t hwf q m2 hm2 hs2
    rcases hshape : isMapShape t with _ | _
    · rw [show updAt [] k (.str c) t = t from ?_] at hm2
      · exact ⟨m2, hm2, hs2, fun j y hy => ⟨y, hy⟩⟩
      · show setE t k (.str c) = t
        cases t <;> first | rfl | cases hshape
    · have hchain : isMapChain t = true := mapShape_chain hwf hshape
      cases q with
      | nil =>
        cases hm2
        refine ⟨t, rfl, hshape, fun j y hy => ?_⟩
        rw [show updAt [] k (VNode.str c) t = setE t k (VNode.str c) from rfl,
          lookupE_setE t k j (.str c) hchain]
        by_cases hj : j = k
        · exact ⟨.str c, by rw [if_pos hj]⟩
        · exact ⟨y, by rw [if_neg hj]; exact hy⟩
      | cons st q2 =>
        cases st with
        | key k2 =>
          simp only [getN] at hm2
          rw [show updAt [] k (.str c) t = setE t k (.str c) from rfl,
            lookupE_setE t k k2 (.str c) hchain] at hm2
          by_cases hk2 : k2 = k
          · rw [if_pos hk2] at hm2
            dsimp only [] at hm2
            rw [getN_scalar (.str c) rfl rfl q2 m2 hm2] at hs2
            cases hs2
          · rw [if_neg hk2] at hm2
            rcases hl : lookupE t k2 with _ | v
            · rw [hl] at hm2; cases hm2
            · rw [hl] at hm2
              dsimp only [] at hm2
              refine ⟨m2, ?_, hs2, fun j y hy => ⟨y, hy⟩⟩
              simp only [getN, hl]
              exact hm2
        | idx i =>
          simp only [getN] at hm2
          rw [seqGet_nonseq i (updAt [] k (.str c) t) ?_] at hm2
          · cases hm2
          · show isSeqShape (setE t k (VNode.str c)) = false
            have := setE_mapShape t k (.str c) hshape
            cases hmm : setE t k (.str c) <;>
              first | rfl | (rw [hmm] at this; cases this)
  | cons st p2 ih =>
    intro t hwf q m2 hm2 hs2
    cases st with
    | key k0 =>
      rw [show updAt (PStep.key k0 :: p2) k (.str c) t =
        mapFirst k0 (updAt p2 k (.str c)) t from rfl] at hm2
      rcases hmc : isMapShape t with _ | _
      · rw [show mapFirst k0 (updAt p2 k (.str c)) t = t from ?_] at hm2
        · exact ⟨m2, hm2, hs2, fun j y hy => ⟨y, hy⟩⟩
        · cases t <;> first | rfl | cases hmc
      · cases q with
        | nil =>
          cases hm2
          refine ⟨t, rfl, hmc, fun j y hy => ?_⟩
          rw [lookupE_mapFirst k0 j (updAt p2 k (.str c)) t]
          by_cases hj : j = k0
          · rw [hj] at hy
            exact ⟨updAt p2 k (.str c) y, by rw [if_pos hj, hy, Option.map_some']⟩
          · exact ⟨y, by rw [if_neg hj]; exact hy⟩
        | cons st2 q2 =>
          cases st2 with
          | key k2 =>
            simp only [getN] at hm2
            rw [lookupE_mapFirst k0 k2 (updAt p2 k (.str c)) t] at hm2
            by_cases hk2 : k2 = k0
            · rw [if_pos hk2] at hm2
              rcases hl : lookupE t k0 with _ | v0
              · rw [hl] at hm2; cases hm2
              · rw [hl, Option.map_some'] at hm2
                dsimp only [] at hm2
                rcases ih v0 (wf_lookup hwf hl) q2 m2 hm2 hs2 with ⟨m1, hg1, hs1, hsub⟩
                refine ⟨m1, ?_, hs1, hsub⟩
                simp only [getN, hk2, hl]
                exact hg1
            · rw [if_neg hk2] at hm2
              rcases hl : lookupE t k2 with _ | v
              · rw [hl] at hm2; cases hm2
              · rw [hl] at hm2
                dsimp only [] at hm2
                refine ⟨m2, ?_, hs2, fun j y hy => ⟨y, hy⟩⟩
                simp only [getN, hl]
                exact hm2
          | idx i =>
            simp only [getN] at hm2
            rw [seqGet_nonseq i (mapFirst k0 (updAt p2 k (.str c)) t) ?_] at hm2
            · cases hm2
            · have := mapFirst_mapShape k0 (updAt p2 k (.str c)) t hmc
              cases hmm : mapFirst k0 (updAt p2 k (.str c)) t <;>
                first | rfl | (rw [hmm] at this; cases this)
    | idx i0 =>
      rw [show updAt (PStep.idx i0 :: p2) k (.str c) t =
        seqMap i0 (updAt p2 k (.str c)) t from rfl] at hm2
      rcases hsc : isSeqShape t with _ | _
      · rw [show seqMap i0 (updAt p2 k (.str c)) t = t from ?_] at hm2
        · exact ⟨m2, hm2, hs2, fun j y hy => ⟨y, hy⟩⟩
        · cases t <;> first | simp [seqMap] | cases hsc
      · cases q with
        | nil =>
          cases hm2
          have : isMapShape (seqMap i0 (updAt p2 k (.str c)) t) = false := by
            have := seqMap_seqShape i0 (updAt p2 k (.str c)) t hsc
            cases hmm : seqMap i0 (updAt p2 k (.str c)) t <;>
              first | rfl | (rw [hmm] at this; cases this)
          rw [this] at hs2
          cases hs2
        | cons st2 q2 =>
          cases st2 with
          | key k2 =>
            simp only [getN] at hm2
            rw [lookupE_nonmap k2 (seqMap i0 (updAt p2 k (.str c)) t) ?_] at hm2
            · cases hm2
            · have := seqMap_seqShape i0 (updAt p2 k (.str c)) t hsc
              cases hmm : seqMap i0 (updAt p2 k (.str c)) t <;>
                first | rfl | (rw [hmm] at this; cases this)
          | idx i2 =>
            simp only [getN] at hm2
            rw [seqGet_seqMap i0 i2 (updAt p2 k (.str c)) t] at hm2
            by_cases hi2 : i2 = i0
            · rw [if_pos hi2] at hm2
              rcases hl : seqGet i0 t with _ | v0
              · rw [hl] at hm2; cases hm2
              · rw [hl, Option.map_some'] at hm2
                dsimp only [] at hm2
                rcases ih v0 (wf_seqGet hwf hl) q2 m2 hm2 hs2 with ⟨m1, hg1, hs1, hsub⟩
                refine ⟨m1, ?_, hs1, hsub⟩
                simp only [getN, hi2, hl]
                exact hg1
            · rw [if_neg hi2] at hm2
              rcases hl : seqGet i2 t with _ | v
              · rw [hl] at hm2; cases hm2
              · rw [hl] at hm2
                dsimp only [] at hm2
                refine ⟨m2, ?_, hs2, fun j y hy => ⟨y, hy⟩⟩
                simp only [getN, hl]
                exact hm2

theorem posVal_updAt_str_pres (q : KPath) (k c : String) :
    ∀ (t : VNode), wfN t = true →
    ∀ (p : KPath) (j c0 : String), posVal p j t = some (.str c0) →
      ¬(p = q ∧ j = k) →
      posVal p j (updAt q k (.str c) t) = some (.str c0) ∨
      ∀ node, getN p (updAt q k (.str c) t) = some node → isMapShape node = false := by
  induction q with
  | nil =>
    intro t hwf p j c0 hpv hne
    rcases hshape : isMapShape t with _ | _
    · left
      rw [show updAt [] k (.str c) t = t from ?_]
      · exact hpv
      · show setE t k (.str c) = t
        cases t <;> first | rfl | cases hshape
    · have hchain : isMapChain t = true := mapShape_chain hwf hshape
      cases p with
      | nil =>
        have hj : j ≠ k := fun hjk => hne ⟨rfl, hjk⟩
        left
        rw [posVal_nil] at hpv
        rw [posVal_nil, show updAt [] k (.str c) t = setE t k (.str c) from rfl,
          lookupE_setE t k j (.str c) hchain, if_neg hj]
        exact hpv
      | cons st p2 =>
        cases st with
        | key p0 =>
          rw [posVal_cons_key] at hpv
          rcases hl : lookupE t p0 with _ | v0
          · rw [hl] at hpv; cases hpv
          · rw [hl] at hpv
            dsimp only [] at hpv
            by_cases hp0 : p0 = k
            · right
              intro node hnode
              simp only [getN] at hnode
              rw [show updAt [] k (.str c) t = setE t k (.str c) from rfl,
                lookupE_setE t k p0 (.str c) hchain, if_pos hp0] at hnode
              dsimp only [] at hnode
              rw [getN_scalar (.str c) rfl rfl p2 node hnode]
              rfl
            · left
              rw [posVal_cons_key, show updAt [] k (.str c) t = setE t k (.str c) from rfl,
                lookupE_setE t k p0 (.str c) hchain, if_neg hp0, hl]
              exact hpv
        | idx i =>
          rw [posVal_cons_idx] at hpv
          rw [seqGet_nonseq i t ?_] at hpv
          · cases hpv
          · cases t <;> first | rfl | cases hshape
  | cons st q2 ih =>
    intro t hwf p j c0 hpv hne
    cases st with
    | key q0 =>
      rw [show updAt (PStep.key q0 :: q2) k (.str c) t =
        mapFirst q0 (updAt q2 k (.str c)) t from rfl]
      rcases hmc : isMapShape t with _ | _
      · left
        rw [show mapFirst q0 (updAt q2 k (.str c)) t = t from ?_]
        · exact hpv
        · cases t <;> first | rfl | cases hmc
      · cases p with
        | nil =>
          left
          rw [posVal_nil] at hpv
          rw [posVal_nil, lookupE_mapFirst q0 j (updAt q2 k (.str c)) t]
          by_cases hj : j = q0
          · rw [hj] at hpv
            rw [if_pos hj, hpv, Option.map_some', updAt_str]
          · rw [if_neg hj]
            exact hpv
        | cons st2 p2 =>
          cases st2 with
          | key p0 =>
            rw [posVal_cons_key] at hpv
            rcases hl : lookupE t p0 with _ | v0
            · rw [hl] at hpv; cases hpv
            · rw [hl] at hpv
              dsimp only [] at hpv
              by_cases hp0 : p0 = q0
              · have hne2 : ¬(p2 = q2 ∧ j = k) := by
                  rintro ⟨rfl, rfl⟩
                  exact hne ⟨by rw [hp0], rfl⟩
                rw [hp0] at hl
                rcases ih v0 (wf_lookup hwf hl) p2 j c0 hpv hne2 with hleft | hright
                · left
                  rw [posVal_cons_key, lookupE_mapFirst q0 p0 (updAt q2 k (.str c)) t,
                    if_pos hp0, hl, Option.map_some']
                  exact hleft
                · right
                  intro node hnode
                  simp only [getN] at hnode
                  rw [lookupE_mapFirst q0 p0 (updAt q2 k (.str c)) t, if_pos hp0, hl,
                    Option.map_some'] at hnode
                  dsimp only [] at hnode
                  exact hright node hnode
              · left
                rw [posVal_cons_key, lookupE_mapFirst q0 p0 (updAt q2 k (.str c)) t,
                  if_neg hp0, hl]
                exact hpv
          | idx i =>
            rw [posVal_cons_idx] at hpv
            rw [seqGet_nonseq i t ?_] at hpv
            · cases hpv
            · cases t <;> first | rfl | cases hmc
    | idx i0 =>
      rw [show updAt (PStep.idx i0 :: q2) k (.str c) t =
        seqMap i0 (updAt q2 k (.str c)) t from rfl]
      rcases hsc : isSeqShape t with _ | _
      · left
        rw [show seqMap i0 (updAt q2 k (.str c)) t = t from ?_]
        · exact hpv
        · cases t <;> first | simp [seqMap] | cases hsc
      · cases p with
        | nil =>
          rw [posVal_nil] at hpv
          rw [lookupE_nonmap j t ?_] at hpv
          · cases hpv
          · cases t <;> first | rfl | cases hsc
        | cons st2 p2 =>
          cases st2 with
          | key p0 =>
            rw [posVal_cons_key] at hpv
            rw [lookupE_nonmap p0 t ?_] at hpv
            · cases hpv
            · cases t <;> first | rfl | cases hsc
          | idx i2 =>
            rw [posVal_cons_idx] at hpv
            rcases hl : seqGet i2 t with _ | v0
            · rw [hl] at hpv; cases hpv
            · rw [hl] at hpv
              dsimp only [] at hpv
              by_cases hi2 : i2 = i0
              · have hne2 : ¬(p2 = q2 ∧ j = k) := by
                  rintro ⟨rfl, rfl⟩
                  exact hne ⟨by rw [hi2], rfl⟩
                rw [hi2] at hl
                rcases ih v0 (wf_seqGet hwf hl) p2 j c0 hpv hne2 with hleft | hright
                · left
                  rw [posVal_cons_idx, seqGet_seqMap i0 i2 (updAt q2 k (.str c)) t,
                    if_pos hi2, hl, Option.map_some']
                  exact hleft
                · right
                  intro node hnode
                  simp only [getN] at hnode
                  rw [seqGet_seqMap i0 i2 (updAt q2 k (.str c)) t, if_pos hi2, hl,
                    Option.map_some'] at hnode
                  dsimp only [] at hnode
                  exact hright node hnode
              · left
                rw [posVal_cons_idx, seqGet_seqMap i0 i2 (updAt q2 k (.str c)) t,
                  if_neg hi2, hl]
                exact hpv

theorem posVal_updAt_write (p : KPath) (k c : String) (t m : VNode)
    (hwf : wfN t = true) (hm : getN p t = some m) (hs : isMapShape m = true) :
    posVal p k (updAt p k (.str c) t) = some (.str c) := by
  unfold posVal
  rw [getN_updAt_self p k (.str c) t m hm]
  dsimp only []
  rw [lookupE_setE m k k (.str c) (mapShape_chain (wf_getN_sub hwf hm) hs), if_pos rfl]

theorem aspire_nonmap (img newV : String) (dry : Bool) (t : VNode) (p : KPath)
    (m : VNode) (hs : isMapShape m = false) :
    aspireFallback img newV dry t p m = (t, false) := by
  unfold aspireFallback
  rw [lookupE_nonmap "key" m hs]

/-- Overlap-freeness of a match list: no mapping is both a structured
match and the parent of an inline match stored under its "tag" key.
This is the side condition under which the rewrite is idempotent. -/
def overlapFreeB (ms : List MatchRec) : Bool :=
  ms.all fun m =>
    match m with
    | .structured p =>
      ms.all fun m2 =>
        match m2 with
        | .inl p2 j _ => !(decide (p2 = p) && decide (j = "tag"))
        | _ => true
    | _ => true

theorem overlapFreeB_spec {ms : List MatchRec} (h : overlapFreeB ms = true)
    {p : KPath} {s : String} (h1 : MatchRec.structured p ∈ ms)
    (h2 : MatchRec.inl p "tag" s ∈ ms) : False := by
  unfold overlapFreeB at h
  rw [List.all_eq_true] at h
  have hx := h _ h1
  dsimp only [] at hx
  rw [List.all_eq_true] at hx
  have hy := hx _ h2
  simp at hy

/-- The loop invariant for the idempotence proof: `t0` is the tree the
matches `ms0` were computed from, `t` is the current tree, and `rest`
is the still-unprocessed suffix of the match list. -/
structure BumpInv (img v : String) (t0 : VNode) (ms0 : List MatchRec) (t : VNode)
    (rest : List MatchRec) : Prop where
  wf : wfN t = true
  trace : ∀ p j s, posVal p j t = some (.str s) →
    posVal p j t0 = some (.str s) ∨ (j = "tag" ∧ s = v) ∨ s = img ++ ":" ++ v
  keys : ∀ q m2, getN q t = some m2 → isMapShape m2 = true →
    ∃ m1, getN q t0 = some m1 ∧ isMapShape m1 = true ∧
      ∀ jj y, lookupE m1 jj = some y → ∃ y2, lookupE m2 jj = some y2
  repo : ∀ p node, MatchRec.structured p ∈ ms0 → getN p t = some node →
    isMapShape node = true → lookupE node "repository" = some (.str img)
  tags : ∀ p, MatchRec.structured p ∈ ms0 → MatchRec.structured p ∉ rest →
    ∀ node, getN p t = some node → isMapShape node = true →
      lookupE node "tag" = some (.str v)
  inls : ∀ p j s, MatchRec.inl p j s ∈ ms0 → MatchRec.inl p j s ∉ rest →
    lastColonSegment s = v ∨ posVal p j t ≠ some (.str s)

theorem lookup_pres_write (q : KPath) (k c : String) (t : VNode) (hwf : wfN t = true)
    (p : KPath) (j c0 : String) (hne : ¬(p = q ∧ j = k))
    (hold : ∀ node, getN p t = some node → isMapShape node = true →
      lookupE node j = some (.str c0)) :
    ∀ node2, getN p (updAt q k (.str c) t) = some node2 → isMapShape node2 = true →
      lookupE node2 j = some (.str c0) := by
  intro node2 h2 hs2
  rcases updAt_str_keys q k c t hwf p node2 h2 hs2 with ⟨node1, h1, hs1, -⟩
  have hpv : posVal p j t = some (.str c0) :=
    (posVal_some_iff p j t (.str c0)).mpr ⟨node1, h1, hold node1 h1 hs1⟩
  rcases posVal_updAt_str_pres q k c t hwf p j c0 hpv hne with hleft | hright
  · rcases (posVal_some_iff p j _ (.str c0)).mp hleft with ⟨x, hx, hlook⟩
    rw [h2] at hx
    cases hx
    exact hlook
  · rw [hright node2 h2] at hs2
    cases hs2

theorem inv_tighten (img v : String) (t0 : VNode) (ms0 : List MatchRec) (t : VNode)
    (m : MatchRec) (rest2 : List MatchRec)
    (inv : BumpInv img v t0 ms0 t (m :: rest2))
    (htag : ∀ p, m = MatchRec.structured p → MatchRec.structured p ∈ ms0 →
      ∀ node, getN p t = some node → isMapShape node = true →
        lookupE node "tag" = some (.str v))
    (hinl : ∀ p j s, m = MatchRec.inl p j s → MatchRec.inl p j s ∈ ms0 →
      lastColonSegment s = v ∨ posVal p j t ≠ some (.str s)) :
    BumpInv img v t0 ms0 t rest2 := by
  refine ⟨inv.wf, inv.trace, inv.keys, inv.repo, ?_, ?_⟩
  · intro p2 hmem2 hnot2 node hg2 hs2
    by_cases hin : MatchRec.structured p2 ∈ m :: rest2
    · rcases List.mem_cons.mp hin with heq | hins
      · exact htag p2 heq.symm hmem2 node hg2 hs2
      · exact absurd hins hnot2
    · exact inv.tags p2 hmem2 hin node hg2 hs2
  · intro p2 j2 s2 hmem2 hnot2
    by_cases hin : MatchRec.inl p2 j2 s2 ∈ m :: rest2
    · rcases List.mem_cons.mp hin with heq | hins
      · exact hinl p2 j2 s2 heq.symm hmem2
      · exact absurd hins hnot2
    · exact inv.inls p2 j2 s2 hmem2 hin

theorem inv_glob_write (img v : String) (t0 : VNode) (ms0 : List MatchRec) (t : VNode)
    (rest1 : List MatchRec)
    (inv : BumpInv img v t0 ms0 t rest1)
    (q : KPath) (mq : VNode) (k c : String)
    (hlive : getN q t = some mq)
    (hcval : (k = "tag" ∧ c = v) ∨ c = img ++ ":" ++ v)
    (hrex : ∀ p2, MatchRec.structured p2 ∈ ms0 → ¬(p2 = q ∧ "repository" = k)) :
    wfN (updAt q k (.str c) t) = true ∧
    (∀ p j s, posVal p j (updAt q k (.str c) t) = some (.str s) →
      posVal p j t0 = some (.str s) ∨ (j = "tag" ∧ s = v) ∨ s = img ++ ":" ++ v) ∧
    (∀ q2 m2, getN q2 (updAt q k (.str c) t) = some m2 → isMapShape m2 = true →
      ∃ m1, getN q2 t0 = some m1 ∧ isMapShape m1 = true ∧
        ∀ jj y, lookupE m1 jj = some y → ∃ y2, lookupE m2 jj = some y2) ∧
    (∀ p node, MatchRec.structured p ∈ ms0 → getN p (updAt q k (.str c) t) = some node →
      isMapShape node = true → lookupE node "repository" = some (.str img)) := by
  refine ⟨updAt_wf q k inv.wf rfl, ?_, ?_, ?_⟩
  · intro p j s h
    rcases posVal_updAt_str_trace q k c t mq inv.wf hlive p j s h with ⟨rfl, rfl, rfl⟩ | hold
    · rcases hcval with ⟨hk, hc⟩ | hc
      · exact Or.inr (Or.inl ⟨hk, hc⟩)
      · exact Or.inr (Or.inr hc)
    · exact inv.trace p j s hold
  · intro q2 m2 h hs
    rcases updAt_str_keys q k c t inv.wf q2 m2 h hs with ⟨m1, hg1, hs1, hsub1⟩
    rcases inv.keys q2 m1 hg1 hs1 with ⟨m0, hg0, hs0, hsub0⟩
    refine ⟨m0, hg0, hs0, fun jj y hy => ?_⟩
    rcases hsub0 jj y hy with ⟨y1, hy1⟩
    exact hsub1 jj y1 hy1
  · intro p node hmem h hs
    exact lookup_pres_write q k c t inv.wf p "repository" img (hrex p hmem)
      (fun nd hg hsd => inv.repo p nd hmem hg hsd) node h hs

theorem stepPreserves (img v : String) (t0 : VNode) (ms0 : List MatchRec)
    (hv : isValidSemver v = true)
    (charS : ∀ p, MatchRec.structured p ∈ ms0 →
      ∃ x, getN p t0 = some x ∧ lookupE x "repository" = some (.str img))
    (charI : ∀ p j s, MatchRec.inl p j s ∈ ms0 →
      ∃ x, getN p t0 = some x ∧ lookupE x j = some (.str s) ∧
        strHasPref (img ++ ":") s = true)
    (ofree : ∀ p s, MatchRec.structured p ∈ ms0 → MatchRec.inl p "tag" s ∈ ms0 → False)
    (m : MatchRec) (hm : m ∈ ms0) (rest2 : List MatchRec) (t : VNode)
    (inv : BumpInv img v t0 ms0 t (m :: rest2)) :
    BumpInv img v t0 ms0 (stepMatch img v false t m).1 rest2 := by
  obtain ⟨hvne, hvcol⟩ := semver_char_facts v hv
  cases m with
  | structured p =>
    rcases hgt : getN p t with _ | mm
    · have hres : (stepMatch img v false t (MatchRec.structured p)).1 = t := by
        simp [stepMatch, hgt]
      rw [hres]
      refine inv_tighten img v t0 ms0 t _ rest2 inv ?_ ?_
      · intro p2 heq hmem2 node hg2 hs2
        cases MatchRec.structured.inj heq
        rw [hgt] at hg2
        exact Option.noConfusion hg2
      · intro p2 j2 s2 heq
        exact MatchRec.noConfusion heq
    · rcases hsm : isMapShape mm with _ | _
      · have hrep : lookupE mm "repository" = none := lookupE_nonmap "repository" mm hsm
        have hres : (stepMatch img v false t (MatchRec.structured p)).1 = t := by
          simp [stepMatch, hgt, hrep, aspire_nonmap img v false t p mm hsm]
        rw [hres]
        refine inv_tighten img v t0 ms0 t _ rest2 inv ?_ ?_
        · intro p2 heq hmem2 node hg2 hs2
          cases MatchRec.structured.inj heq
          rw [hgt] at hg2
          cases hg2
          rw [hsm] at hs2
          exact Bool.noConfusion hs2
        · intro p2 j2 s2 heq
          exact MatchRec.noConfusion heq
      · have hrep : lookupE mm "repository" = some (.str img) := inv.repo p mm hm hgt hsm
        by_cases hot : oldTagOf mm = v
        · have hres : (stepMatch img v false t (MatchRec.structured p)).1 = t := by
            simp [stepMatch, hgt, hrep, hot]
          rw [hres]
          refine inv_tighten img v t0 ms0 t _ rest2 inv ?_ ?_
          · intro p2 heq hmem2 node hg2 hs2
            cases MatchRec.structured.inj heq
            rw [hgt] at hg2
            cases hg2
            exact oldTagOf_eq_some hot hvne
          · intro p2 j2 s2 heq
            exact MatchRec.noConfusion heq
        · have hres : (stepMatch img v false t (MatchRec.structured p)).1 =
              updAt p "tag" (.str v) t := by
            simp [stepMatch, hgt, hrep, hot, hv]
          rw [hres]
          have hrex : ∀ p2, MatchRec.structured p2 ∈ ms0 →
              ¬(p2 = p ∧ "repository" = "tag") := by
            intro p2 _ h
            have : "repository" ≠ "tag" := by decide
            exact this h.2
          obtain ⟨hwf2, htr2, hk2, hre2⟩ :=
            inv_glob_write img v t0 ms0 t (MatchRec.structured p :: rest2) inv p mm
              "tag" v hgt (Or.inl ⟨rfl, rfl⟩) hrex
          refine ⟨hwf2, htr2, hk2, hre2, ?_, ?_⟩
          · intro p2 hmem2 hnot2 node hg2 hs2
            by_cases hp2 : p2 = p
            · subst hp2
              have hw := posVal_updAt_write p2 "tag" v t mm inv.wf hgt hsm
              rcases (posVal_some_iff p2 "tag" _ (.str v)).mp hw with ⟨x, hx, hlook⟩
              rw [hg2] at hx
              cases hx
              exact hlook
            · have hnotin : MatchRec.structured p2 ∉ MatchRec.structured p :: rest2 := by
                intro hin
                rcases List.mem_cons.mp hin with heq | hins
                · exact hp2 (MatchRec.structured.inj heq)
                · exact hnot2 hins
              exact lookup_pres_write p "tag" v t inv.wf p2 "tag" v
                (fun h => hp2 h.1)
                (fun nd hg hsd => inv.tags p2 hmem2 hnotin nd hg hsd) node hg2 hs2
          · intro p2 j2 s2 hmem2 hnot2
            have hnotin : MatchRec.inl p2 j2 s2 ∉ MatchRec.structured p :: rest2 := by
              intro hin
              rcases List.mem_cons.mp hin with heq | hins
              · exact MatchRec.noConfusion heq
              · exact hnot2 hins
            rcases inv.inls p2 j2 s2 hmem2 hnotin with h1 | h2
            · exact Or.inl h1
            · right
              intro hpv
              rcases posVal_updAt_str_trace p "tag" v t mm inv.wf hgt p2 j2 s2 hpv with
                ⟨he1, he2, he3⟩ | hold
              · rw [← he1] at hm
                rw [he2] at hmem2
                exact ofree p2 s2 hm hmem2
              · exact h2 hold
  | inl p j s =>
    rcases charI p j s hm with ⟨x0, hx0, hlx0, hpref⟩
    by_cases hlast : lastColonSegment s = v
    · have hres : (stepMatch img v false t (MatchRec.inl p j s)).1 = t := by
        simp [stepMatch, hpref, hlast]
      rw [hres]
      refine inv_tighten img v t0 ms0 t _ rest2 inv ?_ ?_
      · intro p2 heq
        exact MatchRec.noConfusion heq
      · intro p2 j2 s2 heq hmem2
        rcases MatchRec.inl.inj heq with ⟨rfl, rfl, rfl⟩
        exact Or.inl hlast
    · have hres : (stepMatch img v false t (MatchRec.inl p j s)).1 =
          updAt p j (.str (img ++ ":" ++ v)) t := by
        simp [stepMatch, hpref, hlast, hv]
      rw [hres]
      rcases hgt : getN p t with _ | node
      · rw [updAt_dead p j (.str (img ++ ":" ++ v)) t hgt]
        refine inv_tighten img v t0 ms0 t _ rest2 inv ?_ ?_
        · intro p2 heq
          exact MatchRec.noConfusion heq
        · intro p2 j2 s2 heq hmem2
          rcases MatchRec.inl.inj heq with ⟨rfl, rfl, rfl⟩
          right
          rw [show posVal p j t = none from ?_]
          · exact fun h => Option.noConfusion h
          · unfold posVal
            rw [hgt]
      · rcases hsn : isMapShape node with _ | _
        · rw [updAt_nonmap p j (.str (img ++ ":" ++ v)) t node hgt hsn]
          refine inv_tighten img v t0 ms0 t _ rest2 inv ?_ ?_
          · intro p2 heq
            exact MatchRec.noConfusion heq
          · intro p2 j2 s2 heq hmem2
            rcases MatchRec.inl.inj heq with ⟨rfl, rfl, rfl⟩
            right
            rw [show posVal p j t = lookupE node j from ?_]
            · rw [lookupE_nonmap j node hsn]
              exact fun h => Option.noConfusion h
            · unfold posVal
              rw [hgt]
        · have hrex : ∀ p2, MatchRec.structured p2 ∈ ms0 →
              ¬(p2 = p ∧ "repository" = j) := by
            intro p2 hmem2 hand
            obtain ⟨hpp, hjr⟩ := hand
            subst hpp
            rcases charS p2 hmem2 with ⟨x1, hx1, hlx1⟩
            rw [hx0] at hx1
            cases hx1
            rw [← hjr] at hlx0
            have hsi : VNode.str s = VNode.str img :=
              Option.some.inj (hlx0.symm.trans hlx1)
            cases VNode.str.inj hsi
            rw [strHasPref_colon_self] at hpref
            exact Bool.noConfusion hpref
          obtain ⟨hwf2, htr2, hk2, hre2⟩ :=
            inv_glob_write img v t0 ms0 t (MatchRec.inl p j s :: rest2) inv p node
              j (img ++ ":" ++ v) hgt (Or.inr rfl) hrex
          refine ⟨hwf2, htr2, hk2, hre2, ?_, ?_⟩
          · intro p2 hmem2 hnot2 node2 hg2 hs2
            have hnotin : MatchRec.structured p2 ∉ MatchRec.inl p j s :: rest2 := by
              intro hin
              rcases List.mem_cons.mp hin with heq | hins
              · exact MatchRec.noConfusion heq
              · exact hnot2 hins
            have hne : ¬(p2 = p ∧ "tag" = j) := by
              rintro ⟨rfl, rfl⟩
              exact ofree p2 s hmem2 hm
            exact lookup_pres_write p j (img ++ ":" ++ v) t inv.wf p2 "tag" v hne
              (fun nd hg hsd => inv.tags p2 hmem2 hnotin nd hg hsd) node2 hg2 hs2
          · intro p2 j2 s2 hmem2 hnot2
            by_cases hsame : MatchRec.inl p2 j2 s2 = MatchRec.inl p j s
            · obtain ⟨he1, he2, he3⟩ := MatchRec.inl.inj hsame
              rw [he1, he2, he3]
              right
              rw [posVal_updAt_write p j (img ++ ":" ++ v) t node inv.wf hgt hsn]
              intro h
              have hse : img ++ ":" ++ v = s := VNode.str.inj (Option.some.inj h)
              rw [← hse] at hlast
              exact hlast (lastColonSegment_img img v hvcol)
            · have hnotin : MatchRec.inl p2 j2 s2 ∉ MatchRec.inl p j s :: rest2 := by
                intro hin
                rcases List.mem_cons.mp hin with heq | hins
                · exact hsame heq
                · exact hnot2 hins
              by_cases hl2 : lastColonSegment s2 = v
              · exact Or.inl hl2
              · right
                intro hpv
                rcases posVal_updAt_str_trace p j (img ++ ":" ++ v) t node inv.wf hgt
                    p2 j2 s2 hpv with ⟨rfl, rfl, rfl⟩ | hold
                · exact hl2 (lastColonSegment_img img v hvcol)
                · rcases inv.inls p2 j2 s2 hmem2 hnotin with h1 | h2
                  · exact hl2 h1
                  · exact h2 hold

theorem loopPreserves (img v : String) (t0 : VNode) (ms0 : List MatchRec)
    (hv : isValidSemver v = true)
    (charS : ∀ p, MatchRec.structured p ∈ ms0 →
      ∃ x, getN p t0 = some x ∧ lookupE x "repository" = some (.str img))
    (charI : ∀ p j s, MatchRec.inl p j s ∈ ms0 →
      ∃ x, getN p t0 = some x ∧ lookupE x j = some (.str s) ∧
        strHasPref (img ++ ":") s = true)
    (ofree : ∀ p s, MatchRec.structured p ∈ ms0 → MatchRec.inl p "tag" s ∈ ms0 → False) :
    ∀ (rest : List MatchRec) (t : VNode) (u : Bool),
      (∀ m ∈ rest, m ∈ ms0) →
      BumpInv img v t0 ms0 t rest →
      BumpInv img v t0 ms0 (rewriteLoop img v false t u rest).1 [] := by
  intro rest
  induction rest with
  | nil =>
    intro t u _ inv
    exact inv
  | cons m ms ih =>
    intro t u hsub inv
    simp only [rewriteLoop]
    exact ih (stepMatch img v false t m).1 _
      (fun m2 hm2 => hsub m2 (List.mem_cons_of_mem m hm2))
      (stepPreserves img v t0 ms0 hv charS charI ofree m
        (hsub m (List.mem_cons_self m ms)) ms t inv)

theorem bumpU_eq_loop (t : VNode) (img v : String) (d : Bool)
    (h : findImageBlocksUniversal t img ≠ []) :
    BumpTagInValuesUniversal t img v d =
      ((rewriteLoop img v d t false (findImageBlocksUniversal t img)).1,
       (rewriteLoop img v d t false (findImageBlocksUniversal t img)).2, none) := by
  have hie : (findImageBlocksUniversal t img).isEmpty = false := by
    rcases hms : findImageBlocksUniversal t img with _ | ⟨a, l⟩
    · exact absurd hms h
    · rfl
  simp only [BumpTagInValuesUniversal, hie]
  rfl

/-- C3 (amended): when the new version is a valid semver and the tree is
overlap-free -- no mapping is simultaneously a structured match for the
image and the holder, under its "tag" key, of an inline-style
"image:tag" string -- a non-dry-run call of BumpTagInValuesUniversal
that applies at least one update reports changed=true, every match
recomputed on the resulting tree classifies as an already-current skip,
and a second identical call reports changed=false.  (Without
overlap-freeness idempotence fails; see the counterexample.) -/
theorem bumpUniversal_idempotent_of_no_tag_overlap (t : VNode) (img v : String)
    (hwf : wfN t = true) (hv : isValidSemver v = true)
    (hof : overlapFreeB (findImageBlocksUniversal t img) = true)
    (happ : ∃ m ∈ findImageBlocksUniversal t img,
      classify img v t m = Outcome.applied) :
    (BumpTagInValuesUniversal t img v false).2.1 = true ∧
    (∀ m ∈ findImageBlocksUniversal (BumpTagInValuesUniversal t img v false).1 img,
      classify img v (BumpTagInValuesUniversal t img v false).1 m =
        Outcome.skippedCurrent) ∧
    (BumpTagInValuesUniversal
       (BumpTagInValuesUniversal t img v false).1 img v false).2.1 = false := by
  obtain ⟨hvne, hvcol⟩ := semver_char_facts v hv
  obtain ⟨m0, hm0, hcl0⟩ := happ
  have hne0 : findImageBlocksUniversal t img ≠ [] := by
    intro h
    rw [h] at hm0
    cases hm0
  have hbt := bumpU_eq_loop t img v false hne0
  have hchg : (rewriteLoop img v false t false (findImageBlocksUniversal t img)).2
      = true := by
    rcases hb : (rewriteLoop img v false t false (findImageBlocksUniversal t img)).2
      with _ | _
    · exfalso
      have hall := (rewriteLoop_false_iff img v false t
        (findImageBlocksUniversal t img)).mp hb
      have h1 := (stepMatch_snd_iff img v false t m0).mpr hcl0
      rw [hall m0 hm0] at h1
      exact Bool.noConfusion h1
    · rfl
  have charS := fun p hp => (mem_findUniversal_struct t img p hwf).mp hp
  have charI := fun p j s hp => (mem_findUniversal_inline t img p j s hwf).mp hp
  have ofree : ∀ p s, MatchRec.structured p ∈ findImageBlocksUniversal t img →
      MatchRec.inl p "tag" s ∈ findImageBlocksUniversal t img → False :=
    fun p s h1 h2 => overlapFreeB_spec hof h1 h2
  have inv0 : BumpInv img v t (findImageBlocksUniversal t img) t
      (findImageBlocksUniversal t img) := by
    refine ⟨hwf, ?_, ?_, ?_, ?_, ?_⟩
    · intro p j s h
      exact Or.inl h
    · intro q m2 h hs
      exact ⟨m2, h, hs, fun jj y hy => ⟨y, hy⟩⟩
    · intro p node hp hg hs
      rcases charS p hp with ⟨x, hx, hlx⟩
      rw [hg] at hx
      cases hx
      exact hlx
    · intro p hp hnp
      exact absurd hp hnp
    · intro p j s hp hnp
      exact absurd hp hnp
  have invF := loopPreserves img v t (findImageBlocksUniversal t img) hv charS charI
    ofree (findImageBlocksUniversal t img) t false (fun m hm => hm) inv0
  have hall2 : ∀ m ∈ findImageBlocksUniversal
        (rewriteLoop img v false t false (findImageBlocksUniversal t img)).1 img,
      classify img v
          (rewriteLoop img v false t false (findImageBlocksUniversal t img)).1 m =
        Outcome.skippedCurrent := by
    intro m1 hm1
    set t1 := (rewriteLoop img v false t false (findImageBlocksUniversal t img)).1
    cases m1 with
    | structured p =>
      rcases (mem_findUniversal_struct t1 img p invF.wf).mp hm1 with ⟨x1, hgx1, hrx1⟩
      have hs1 : isMapShape x1 = true := lookupE_some_mapShape hrx1
      have hpv1 : posVal p "repository" t1 = some (.str img) :=
        (posVal_some_iff _ _ _ _).mpr ⟨x1, hgx1, hrx1⟩
      rcases invF.trace p "repository" img hpv1 with hold | ⟨hj, -⟩ | hiv
      · rcases (posVal_some_iff _ _ _ _).mp hold with ⟨x0, hgx0, hlx0⟩
        have hpmem : MatchRec.structured p ∈ findImageBlocksUniversal t img :=
          (mem_findUniversal_struct t img p hwf).mpr ⟨x0, hgx0, hlx0⟩
        have htag := invF.tags p hpmem (List.not_mem_nil _) x1 hgx1 hs1
        have hot : oldTagOf x1 = v := by
          unfold oldTagOf
          rw [htag]
        show classify img v t1 (MatchRec.structured p) = Outcome.skippedCurrent
        simp [classify, hgx1, hrx1, hot]
      · exact absurd hj (by decide)
      · exact absurd hiv.symm (img_colon_v_ne_img img v)
    | inl p j s =>
      rcases (mem_findUniversal_inline t1 img p j s invF.wf).mp hm1 with
        ⟨x1, hgx1, hlx1, hprefs⟩
      have hpv1 : posVal p j t1 = some (.str s) :=
        (posVal_some_iff _ _ _ _).mpr ⟨x1, hgx1, hlx1⟩
      have hlast : lastColonSegment s = v := by
        rcases invF.trace p j s hpv1 with hold | ⟨hj, hs2⟩ | hiv
        · rcases (posVal_some_iff _ _ _ _).mp hold with ⟨x0, hgx0, hlx0⟩
          have hpmem : MatchRec.inl p j s ∈ findImageBlocksUniversal t img :=
            (mem_findUniversal_inline t img p j s hwf).mpr ⟨x0, hgx0, hlx0, hprefs⟩
          rcases invF.inls p j s hpmem (List.not_mem_nil _) with h1 | h2
          · exact h1
          · exact absurd hpv1 h2
        · subst hs2
          exact absurd rfl (hvcol ':' (colon_mem_of_pref hprefs))
        · rw [hiv]
          exact lastColonSegment_img img v hvcol
      show classify img v t1 (MatchRec.inl p j s) = Outcome.skippedCurrent
      simp [classify, hprefs, hlast]
  refine ⟨?_, ?_, ?_⟩
  · rw [hbt]
    exact hchg
  · rw [hbt]
    exact hall2
  · rw [hbt]
    show (BumpTagInValuesUniversal
      (rewriteLoop img v false t false (findImageBlocksUniversal t img)).1
      img v false).2.1 = false
    rcases hms1 : findImageBlocksUniversal
        (rewriteLoop img v false t false (findImageBlocksUniversal t img)).1 img
      with _ | ⟨a, l⟩
    · simp [BumpTagInValuesUniversal, hms1]
    · have hne1 : findImageBlocksUniversal
          (rewriteLoop img v false t false (findImageBlocksUniversal t img)).1 img
          ≠ [] := by
        rw [hms1]
        intro hx
        cases hx
      rw [bumpU_eq_loop _ img v false hne1]
      show (rewriteLoop img v false _ false (findImageBlocksUniversal _ img)).2 = false
      rw [rewriteLoop_false_iff]
      intro m hm
      rcases hb : (stepMatch img v false
          (rewriteLoop img v false t false (findImageBlocksUniversal t img)).1 m).2
        with _ | _
      · rfl
      · have hap := (stepMatch_snd_iff img v false
          (rewriteLoop img v false t false (findImageBlocksUniversal t img)).1 m).mp hb
        rw [hall2 m hm] at hap
        exact Outcome.noConfusion hap

/-- Concrete tree for the idempotence witness: one structured image
block under the "app" key. -/
def idemTreeW : VNode :=
  VNode.mcons "app"
    (VNode.mcons "repository" (VNode.str "img")
      (VNode.mcons "tag" (VNode.str "1.0.0") VNode.mnil)) VNode.mnil

theorem bumpUniversal_idempotent_of_no_tag_overlap_witness :
    (BumpTagInValuesUniversal idemTreeW "img" "2.0.0" false).2.1 = true ∧
    (∀ m ∈ findImageBlocksUniversal
        (BumpTagInValuesUniversal idemTreeW "img" "2.0.0" false).1 "img",
      classify "img" "2.0.0"
          (BumpTagInValuesUniversal idemTreeW "img" "2.0.0" false).1 m =
        Outcome.skippedCurrent) ∧
    (BumpTagInValuesUniversal
       (BumpTagInValuesUniversal idemTreeW "img" "2.0.0" false).1
       "img" "2.0.0" false).2.1 = false :=
  bumpUniversal_idempotent_of_no_tag_overlap idemTreeW "img" "2.0.0" (by decide)
    (by decide) (by decide)
    ⟨MatchRec.structured [PStep.key "app"], by decide, by decide⟩
